import Mathlib

/-!
Verification development for the IA32 lithium code generator
(lithium-codegen-ia32.cc) and the snapshot blob builder
(snapshot-common.cc).  Machine state and emitted-code semantics are
shallowly embedded: straight-line guarded code is modelled as a function
from abstract inputs to an outcome (a deoptimization with a reason, a
machine fault, or a result value), and the metadata builders
(translations, safepoints, jump table) are modelled as explicit state
transformers over lists.
-/

deriving instance DecidableEq for Except

namespace V8

/-- Deoptimization reasons used by the modelled lowering paths
(Deoptimizer::DeoptReason). -/
inductive DeoptReason
  | kDivisionByZero
  | kMinusZero
  | kOverflow
  | kLostPrecision
  | kOutOfBounds
  | kHole
  | kNotASmi
  deriving DecidableEq, Repr

/-- kMinInt, the smallest signed 32-bit integer. -/
def kMinInt : Int := -(2 ^ 31)

/-- 2^32, the modulus of unsigned 32-bit machine arithmetic. -/
def mask32 : Nat := 2 ^ 32

/-- Two's-complement encoding of a (conceptually 32-bit) signed integer as
an unsigned 32-bit machine word. -/
def toUint32 (z : Int) : Nat := (z % (2 ^ 32 : Int)).toNat

/-! ### C8 : DoMulI, multiplication by a constant right operand -/

/-- Hydrogen flags consulted by LCodeGen::DoMulI. -/
structure MulFlags where
  canOverflow : Bool
  bailoutOnMinusZero : Bool
  deriving DecidableEq, Repr

/-- The 32-bit machine product computed by the constant-right-operand arm
of LCodeGen::DoMulI: the chain of strength reductions (neg for -1, xor
for 0, add for 2, and, when the instruction cannot overflow, lea/shl for
1, 3, 4, 5, 8, 9, 16) with a general imul fallback.  `l` is the unsigned
32-bit contents of the left register, `c` the int32 constant. -/
def doMulIConst (flags : MulFlags) (c : Int) (l : Nat) : Nat :=
  if c = -1 then (mask32 - l) % mask32
  else if c = 0 then 0
  else if c = 2 then (l + l) % mask32
  else if !flags.canOverflow then
    if c = 1 then l
    else if c = 3 then (l + l * 2) % mask32
    else if c = 4 then (l * 2 ^ 2) % mask32
    else if c = 5 then (l + l * 4) % mask32
    else if c = 8 then (l * 2 ^ 3) % mask32
    else if c = 9 then (l + l * 8) % mask32
    else if c = 16 then (l * 2 ^ 4) % mask32
    else (l * toUint32 c) % mask32
  else (l * toUint32 c) % mask32

/-- The general imul lowering: unsigned 32-bit product modulo 2^32. -/
def imul32 (c : Int) (l : Nat) : Nat := (l * toUint32 c) % mask32

theorem toUint32_neg_one : toUint32 (-1) = mask32 - 1 := by decide

theorem toUint32_small (c : Int) (h0 : 0 ≤ c) (h1 : c < 2 ^ 32) :
    toUint32 c = c.toNat := by
  unfold toUint32
  rw [Int.emod_eq_of_lt h0 h1]

/-- Claim C8: every strength-reduced multiplication sequence in DoMulI
computes the same 32-bit product modulo 2^32 as the general imul
lowering, for every value of the left operand. -/
theorem doMulIConst_eq_imul32 (flags : MulFlags) (c : Int) (l : Nat)
    (hl : l < mask32) : doMulIConst flags c l = imul32 c l := by
  unfold doMulIConst imul32
  by_cases h1 : c = -1
  · rw [if_pos h1, h1, toUint32_neg_one]
    unfold mask32 at *
    omega
  rw [if_neg h1]
  by_cases h0 : c = 0
  · rw [if_pos h0, h0, (by decide : toUint32 0 = 0)]
    simp
  rw [if_neg h0]
  by_cases h2 : c = 2
  · rw [if_pos h2, h2, (by decide : toUint32 2 = 2)]
    unfold mask32
    omega
  rw [if_neg h2]
  cases hco : flags.canOverflow
  · simp only [Bool.not_false, if_true]
    by_cases hc1 : c = 1
    · rw [if_pos hc1, hc1, (by decide : toUint32 1 = 1)]
      simp [Nat.mod_eq_of_lt hl]
    rw [if_neg hc1]
    by_cases hc3 : c = 3
    · rw [if_pos hc3, hc3, (by decide : toUint32 3 = 3)]
      unfold mask32
      omega
    rw [if_neg hc3]
    by_cases hc4 : c = 4
    · rw [if_pos hc4, hc4, (by decide : toUint32 4 = 4)]
      unfold mask32
      omega
    rw [if_neg hc4]
    by_cases hc5 : c = 5
    · rw [if_pos hc5, hc5, (by decide : toUint32 5 = 5)]
      unfold mask32
      omega
    rw [if_neg hc5]
    by_cases hc8 : c = 8
    · rw [if_pos hc8, hc8, (by decide : toUint32 8 = 8)]
      unfold mask32
      omega
    rw [if_neg hc8]
    by_cases hc9 : c = 9
    · rw [if_pos hc9, hc9, (by decide : toUint32 9 = 9)]
      unfold mask32
      omega
    rw [if_neg hc9]
    by_cases hc16 : c = 16
    · rw [if_pos hc16, hc16, (by decide : toUint32 16 = 16)]
      unfold mask32
      omega
    rw [if_neg hc16]
  · simp

/-- Witness for C8 at a concrete input: left operand 7, constant 9, no
overflow flag. -/
theorem doMulIConst_eq_imul32_witness :
    (7 : Nat) < mask32 ∧
      doMulIConst ⟨false, false⟩ 9 7 = imul32 9 7 :=
  ⟨by decide, doMulIConst_eq_imul32 ⟨false, false⟩ 9 7 (by decide)⟩


/-! ### Machine-level helpers shared by the lowering models -/

/-- Signed interpretation of an unsigned 32-bit machine word. -/
def sint32 (w : Nat) : Int := if w < 2 ^ 31 then (w : Int) else (w : Int) - 2 ^ 32

/-- x86 neg on a 32-bit register. -/
def neg32 (w : Nat) : Nat := (mask32 - w) % mask32

/-- x86 add of two 32-bit registers, truncated. -/
def add32 (a b : Nat) : Nat := (a + b) % mask32

/-- x86 shr (logical shift right) on a 32-bit register. -/
def shr32 (w k : Nat) : Nat := w / 2 ^ k

/-- x86 sar (arithmetic shift right) on a 32-bit register: floor division
of the signed interpretation. -/
def sar32 (w k : Nat) : Nat := toUint32 ((sint32 w).fdiv (2 ^ k))

/-- x86 bitwise test of a register against an int32 immediate: true when
the zero flag is set, i.e. the conjunction is zero. -/
def testZero32 (w : Nat) (imm : Int) : Bool := w &&& toUint32 imm = 0

/-- base::bits::IsPowerOfTwo32 applied to the uint32 cast of a value. -/
def isPowerOfTwo32 (v : Nat) : Bool := v ≠ 0 && v &&& (v - 1) = 0

/-- Abs on an int32, with the int32 wraparound at kMinInt (Abs(kMinInt)
overflows back to kMinInt; its uint32 cast is 2^31). -/
def absWrap32 (d : Int) : Nat := if d = kMinInt then 2 ^ 31 else d.natAbs

/-- WhichPowerOf2Abs: the shift amount for a power-of-two divisor
(31 for kMinInt). -/
def whichPowerOf2Abs (d : Int) : Nat := if d = kMinInt then 31 else Nat.log2 d.natAbs

/-! ### C1 : integer-division lowerings and the division-by-zero guard -/

/-- Hydrogen flags consulted by the division lowerings. -/
structure DivFlags where
  bailoutOnMinusZero : Bool
  canOverflow : Bool
  allUsesTruncating : Bool
  canBeDivByZero : Bool
  deriving DecidableEq, Repr

/-- Outcome of one emitted straight-line lowering: a deoptimization with
its recorded reason, a normal result word, or a hardware fault (the x86
idiv #DE exception, which is not a deoptimization). -/
inductive DivOutcome
  | deopt (r : DeoptReason)
  | ok (v : Nat)
  | fault
  deriving DecidableEq, Repr

/-- The DCHECK precondition of LCodeGen::DoDivByPowerOf2I:
divisor == kMinInt || IsPowerOfTwo32(Abs(divisor)). -/
def divByPowerOf2Precondition (divisor : Int) : Bool :=
  divisor = kMinInt || isPowerOfTwo32 (absWrap32 divisor)

/-- LCodeGen::DoDivByPowerOf2I: the guard sequence and shift arithmetic
emitted for a compile-time power-of-two divisor.  `dividend` is the
unsigned contents of the dividend register. -/
def doDivByPowerOf2I (flags : DivFlags) (divisor : Int) (dividend : Nat) :
    DivOutcome :=
  if flags.bailoutOnMinusZero && divisor < 0 && dividend = 0 then
    .deopt .kMinusZero
  else if flags.canOverflow && divisor = -1 && dividend = toUint32 kMinInt then
    .deopt .kOverflow
  else if !flags.allUsesTruncating && divisor ≠ 1 && divisor ≠ -1 &&
      !testZero32 dividend (if divisor < 0 then -(divisor + 1) else divisor - 1) then
    .deopt .kLostPrecision
  else
    let shift := whichPowerOf2Abs divisor
    let result :=
      if shift > 0 then
        let r1 := if shift > 1 then sar32 dividend 31 else dividend
        let r2 := shr32 r1 (32 - shift)
        let r3 := add32 r2 dividend
        sar32 r3 shift
      else dividend
    .ok (if divisor < 0 then neg32 result else result)

/-- Modelled from the spec: MacroAssembler::TruncatingDiv (declared in
the macro assembler, not under src/) computes the truncated signed
quotient of the dividend register by a positive constant divisor using a
magic-number multiplication; only its result is observable here. -/
def truncatingDiv (dividend : Nat) (divisor : Int) : Nat :=
  toUint32 ((sint32 dividend).tdiv divisor)

/-- x86 imul of a 32-bit register by an int32 immediate. -/
def imulImm32 (w : Nat) (imm : Int) : Nat := (w * toUint32 imm) % mask32

/-- x86 sub of two 32-bit registers, truncated. -/
def sub32 (a b : Nat) : Nat := (mask32 + a - b) % mask32

/-- LCodeGen::DoDivByConstI: the guard sequence emitted for a general
compile-time constant divisor.  A zero divisor deopts unconditionally
with reason kDivisionByZero before anything else is emitted. -/
def doDivByConstI (flags : DivFlags) (divisor : Int) (dividend : Nat) :
    DivOutcome :=
  if divisor = 0 then .deopt .kDivisionByZero
  else if flags.bailoutOnMinusZero && divisor < 0 && dividend = 0 then
    .deopt .kMinusZero
  else
    let edx0 := truncatingDiv dividend (|divisor|)
    let edx := if divisor < 0 then neg32 edx0 else edx0
    if !flags.allUsesTruncating &&
        sub32 (imulImm32 edx divisor) dividend ≠ 0 then
      .deopt .kLostPrecision
    else .ok edx

/-- LCodeGen::DoDivI: the guard sequence and idiv emitted for a divisor
held in a register.  The division-by-zero guard is emitted only when the
hydrogen value carries the kCanBeDivByZero flag; without it a zero
divisor reaches the idiv instruction and faults. -/
def doDivI (flags : DivFlags) (divisor : Nat) (dividend : Nat) :
    DivOutcome :=
  if flags.canBeDivByZero && divisor = 0 then .deopt .kDivisionByZero
  else if flags.bailoutOnMinusZero && dividend = 0 && 2 ^ 31 ≤ divisor then
    .deopt .kMinusZero
  else if flags.canOverflow && dividend = toUint32 kMinInt &&
      sint32 divisor = -1 then
    .deopt .kOverflow
  else if divisor = 0 ∨ (dividend = toUint32 kMinInt ∧ sint32 divisor = -1) then
    .fault
  else
    let q := (sint32 dividend).tdiv (sint32 divisor)
    let r := (sint32 dividend).tmod (sint32 divisor)
    if !flags.allUsesTruncating && toUint32 r ≠ 0 then .deopt .kLostPrecision
    else .ok (toUint32 q)

/-- Counterexample for C1: on the register-divisor path DoDivI, when the
hydrogen value does not carry kCanBeDivByZero, a zero divisor emits no
division-by-zero guard at all; execution reaches idiv and faults instead
of deoptimizing, refuting the claim that all three lowering paths deopt
with kDivisionByZero on a zero divisor. -/
theorem doDivI_divByZero_counterexample :
    doDivI ⟨false, false, true, false⟩ 0 5 = DivOutcome.fault ∧
      DivOutcome.fault ≠ DivOutcome.deopt DeoptReason.kDivisionByZero := by
  constructor
  · rfl
  · decide

/-- Claim C1 (amended): a zero divisor deopts with the distinguishable
reason kDivisionByZero unconditionally on the constant-divisor path
DoDivByConstI, and on the register-divisor path DoDivI exactly when the
kCanBeDivByZero flag is set (so the two guarded paths agree); the
power-of-two path DoDivByPowerOf2I cannot be reached with a zero divisor
because its precondition requires the divisor to be kMinInt or to have a
power-of-two absolute value. -/
theorem div_by_zero_guards (flags : DivFlags) (dividend : Nat)
    (hflag : flags.canBeDivByZero = true) :
    doDivByConstI flags 0 dividend = DivOutcome.deopt DeoptReason.kDivisionByZero ∧
      doDivI flags 0 dividend = DivOutcome.deopt DeoptReason.kDivisionByZero ∧
      doDivI flags 0 dividend = doDivByConstI flags 0 dividend ∧
      divByPowerOf2Precondition 0 = false := by
  refine ⟨rfl, ?_, ?_, by decide⟩
  · unfold doDivI
    rw [hflag]
    simp
  · unfold doDivI doDivByConstI
    rw [hflag]
    simp

/-- Witness for C1 at a concrete input: flags with kCanBeDivByZero set,
dividend 7. -/
theorem div_by_zero_guards_witness :
    doDivByConstI ⟨false, false, false, true⟩ 0 7 =
        DivOutcome.deopt DeoptReason.kDivisionByZero ∧
      doDivI ⟨false, false, false, true⟩ 0 7 =
        DivOutcome.deopt DeoptReason.kDivisionByZero :=
  ⟨(div_by_zero_guards ⟨false, false, false, true⟩ 7 rfl).1,
   (div_by_zero_guards ⟨false, false, false, true⟩ 7 rfl).2.1⟩


/-! ### Conditions (x86 condition codes used by the modelled lowerings) -/

/-- The x86 condition codes appearing in the modelled comparisons. -/
inductive Condition
  | above
  | aboveEqual
  | below
  | belowEqual
  | equal
  | notEqual
  deriving DecidableEq, Repr

/-- CommuteCondition: the condition that holds after swapping the two
comparison operands. -/
def commuteCondition : Condition → Condition
  | .above => .below
  | .below => .above
  | .aboveEqual => .belowEqual
  | .belowEqual => .aboveEqual
  | .equal => .equal
  | .notEqual => .notEqual

/-- NegateCondition: the logical negation of a condition code. -/
def negateCondition : Condition → Condition
  | .above => .belowEqual
  | .belowEqual => .above
  | .aboveEqual => .below
  | .below => .aboveEqual
  | .equal => .notEqual
  | .notEqual => .equal

/-- Truth of a condition code for the flags set by the unsigned compare
cmp(a, b). -/
def condHoldsU (c : Condition) (a b : Nat) : Bool :=
  match c with
  | .above => b < a
  | .aboveEqual => b ≤ a
  | .below => a < b
  | .belowEqual => a ≤ b
  | .equal => a = b
  | .notEqual => a ≠ b

/-! ### C5 : DoBoundsCheck -/

/-- Operand shapes of an LBoundsCheck: which of index/length is a
compile-time constant. -/
inductive BCForm
  | constIndex
  | constLength
  | regReg
  deriving DecidableEq, Repr

/-- The per-instruction inputs of LCodeGen::DoBoundsCheck.  A
BuiltinFunctionId op is abstracted by its two observations used here:
whether IsSIMD128LoadStoreOp holds and its GetSIMD128LoadStoreBytes
value; an elements kind is abstracted by its ElementsKindToShiftSize
(index and length taken in int32 representation). -/
structure BCInput where
  simdOp : Bool
  simdBytes : Nat
  elemShift : Nat
  allowEquality : Bool
  skipCheck : Bool
  debugCode : Bool
  form : BCForm
  deriving DecidableEq, Repr

/-- LCodeGen::DoBoundsCheck: emitted comparison plus the final
DeoptimizeIf (or the debug int3 when FLAG_debug_code and skip_check).
Returns some reason when the guard deopts, none on fallthrough. -/
def doBoundsCheck (inp : BCInput) (index length : Nat) : Option DeoptReason :=
  let cc0 : Condition := if inp.allowEquality then .above else .aboveEqual
  let cab : Condition × Nat × Nat :=
    if inp.simdOp then
      let indexBytes := add32 ((index * 2 ^ inp.elemShift) % mask32) inp.simdBytes
      let lengthBytes := (length * 2 ^ inp.elemShift) % mask32
      (.above, indexBytes, lengthBytes)
    else
      match inp.form with
      | .constIndex => (commuteCondition cc0, length, index)
      | .constLength => (cc0, index, length)
      | .regReg => (cc0, index, length)
  if inp.debugCode && inp.skipCheck then none
  else if condHoldsU cab.1 cab.2.1 cab.2.2 then some .kOutOfBounds
  else none

/-- Counterexample for C5: for the SIMD128 load kFloat32ArrayGetFloat32x4XYZW
(a typed-array access with IsSIMD128LoadStoreOp true, 16 access bytes,
element shift 2), index 0 and length 1 satisfy index < length, yet
DoBoundsCheck deopts: the SIMD path checks the byte extent
index*4 + 16 <= length*4, not the claimed index/length policy. -/
theorem doBoundsCheck_simd_counterexample :
    ¬ (doBoundsCheck ⟨true, 16, 2, false, false, false, .regReg⟩ 0 1 = none ↔
        (0 < 1 ∨ (false = true ∧ 0 = 1))) := by
  decide

/-- Claim C5 (amended): for non-SIMD128 accesses DoBoundsCheck succeeds
exactly when index < length or (allow_equality and index == length), and
any failure deopts with reason kOutOfBounds; for SIMD128 load/store
accesses it instead succeeds exactly when index*2^shift + accessBytes <=
length*2^shift (absent 32-bit wraparound); in both shapes, with
allow_equality false and index = length (and a positive access width on
the SIMD path) the instruction is guaranteed to deopt with kOutOfBounds. -/
theorem doBoundsCheck_policy (simdBytes elemShift : Nat)
    (allowEq skip debug : Bool) (form : BCForm) (index length : Nat)
    (hnd : (debug && skip) = false) :
    ((doBoundsCheck ⟨false, simdBytes, elemShift, allowEq, skip, debug, form⟩
        index length = none ↔
      (index < length ∨ (allowEq = true ∧ index = length))) ∧
     (allowEq = false → index = length →
      doBoundsCheck ⟨false, simdBytes, elemShift, allowEq, skip, debug, form⟩
        index length = some DeoptReason.kOutOfBounds)) ∧
    (index * 2 ^ elemShift + simdBytes < mask32 →
     length * 2 ^ elemShift < mask32 →
     ((doBoundsCheck ⟨true, simdBytes, elemShift, allowEq, skip, debug, form⟩
         index length = none ↔
       index * 2 ^ elemShift + simdBytes ≤ length * 2 ^ elemShift) ∧
      (0 < simdBytes → index = length →
       doBoundsCheck ⟨true, simdBytes, elemShift, allowEq, skip, debug, form⟩
         index length = some DeoptReason.kOutOfBounds))) := by
  constructor
  · unfold doBoundsCheck
    simp only [hnd, Bool.false_eq_true, if_false]
    constructor
    · cases hae : allowEq <;> cases form <;>
        simp [condHoldsU, commuteCondition] <;> omega
    · intro hae hil
      subst hil hae
      cases form <;> simp [condHoldsU, commuteCondition]
  · intro hiw hlw
    unfold doBoundsCheck
    simp only [hnd, Bool.false_eq_true, if_false, if_true]
    have hib : (index * 2 ^ elemShift) % mask32 = index * 2 ^ elemShift :=
      Nat.mod_eq_of_lt (by omega)
    have hlb : (length * 2 ^ elemShift) % mask32 = length * 2 ^ elemShift :=
      Nat.mod_eq_of_lt hlw
    constructor
    · simp only [add32, hib, hlb, Nat.mod_eq_of_lt hiw]
      simp [condHoldsU] <;> omega
    · intro hb hil
      subst hil
      simp only [add32, hib, hlb, Nat.mod_eq_of_lt hiw]
      simp [condHoldsU] <;> omega

/-- Witness for C5 at concrete inputs: a register/register non-SIMD check
with index 2, length 2, allow_equality false deopts kOutOfBounds; the
SIMD shape with 16 access bytes, shift 2, index 1, length 1 deopts. -/
theorem doBoundsCheck_policy_witness :
    doBoundsCheck ⟨false, 16, 2, false, false, false, .regReg⟩ 2 2 =
        some DeoptReason.kOutOfBounds ∧
      doBoundsCheck ⟨true, 16, 2, false, false, false, .regReg⟩ 1 1 =
        some DeoptReason.kOutOfBounds := by
  refine ⟨(doBoundsCheck_policy 16 2 false false false .regReg 2 2 rfl).1.2 rfl rfl, ?_⟩
  exact ((doBoundsCheck_policy 16 2 false false false .regReg 1 1 rfl).2
    (by decide) (by decide)).2 (by decide) rfl


/-! ### C6 : DoLoadKeyedFixedArray hole handling -/

/-- Tagged values observable by the keyed-load hole checks: the hole
sentinel, the undefined value, a small integer (tag bit clear), or some
other heap object. -/
inductive HeapValue
  | hole
  | undefinedV
  | smi (n : Int)
  | heapObj (id : Nat)
  deriving DecidableEq, Repr

/-- The smi tag test: test(result, kSmiTagMask) sets the zero flag
exactly for smis. -/
def isSmiValue : HeapValue → Bool
  | .smi _ => true
  | _ => false

/-- The per-site inputs of LCodeGen::DoLoadKeyedFixedArray. -/
structure LoadKeyedInput where
  requiresHoleCheck : Bool
  fastSmiKind : Bool
  convertHole : Bool
  isStub : Bool
  protectorValid : Bool
  deriving DecidableEq, Repr

/-- LCodeGen::DoLoadKeyedFixedArray: the hole-checking tail emitted after
the raw element load, applied to the loaded value. -/
def doLoadKeyedFixedArray (inp : LoadKeyedInput) (v : HeapValue) :
    Except DeoptReason HeapValue :=
  if inp.requiresHoleCheck then
    if inp.fastSmiKind then
      if !isSmiValue v then .error .kNotASmi else .ok v
    else
      if v = .hole then .error .kHole else .ok v
  else if inp.convertHole then
    if v ≠ .hole then .ok v
    else if inp.isStub && !inp.protectorValid then .error .kHole
    else .ok .undefinedV
  else .ok v

/-- Counterexample for C6: at a site declared convert-hole-to-undefined,
compiled as a stub while the array protector cell is invalid, loading the
hole deopts with reason kHole instead of producing undefined. -/
theorem doLoadKeyedFixedArray_stub_counterexample :
    doLoadKeyedFixedArray ⟨false, false, true, true, false⟩ .hole =
        Except.error DeoptReason.kHole ∧
      doLoadKeyedFixedArray ⟨false, false, true, true, false⟩ .hole ≠
        Except.ok HeapValue.undefinedV := by
  decide

/-- Claim C6 (amended): at a convert-hole-to-undefined site, reading the
hole yields undefined with no deopt whenever the code is not a stub or
the array protector is valid (a stub with an invalid protector instead
deopts kHole); at a site requiring a hole check, reading the hole deopts
with reason kHole, and for fast-smi element kinds any non-smi value
deopts with reason kNotASmi. -/
theorem doLoadKeyedFixedArray_policy (inp : LoadKeyedInput) (v : HeapValue) :
    (inp.requiresHoleCheck = false → inp.convertHole = true →
       (inp.isStub = false ∨ inp.protectorValid = true) →
       doLoadKeyedFixedArray inp .hole = Except.ok HeapValue.undefinedV) ∧
    (inp.requiresHoleCheck = true → inp.fastSmiKind = false →
       doLoadKeyedFixedArray inp .hole = Except.error DeoptReason.kHole) ∧
    (inp.requiresHoleCheck = true → inp.fastSmiKind = true →
       isSmiValue v = false →
       doLoadKeyedFixedArray inp v = Except.error DeoptReason.kNotASmi) := by
  refine ⟨?_, ?_, ?_⟩
  · intro h1 h2 h3
    unfold doLoadKeyedFixedArray
    rcases h3 with h3 | h3 <;> simp [h1, h2, h3]
  · intro h1 h2
    unfold doLoadKeyedFixedArray
    simp [h1, h2]
  · intro h1 h2 h3
    unfold doLoadKeyedFixedArray
    simp [h1, h2, h3]

/-- Witness for C6 at concrete inputs: an optimized (non-stub)
convert-hole site converts the hole to undefined; a hole-checking site
deopts kHole on the hole; a fast-smi site deopts kNotASmi on a heap
object. -/
theorem doLoadKeyedFixedArray_policy_witness :
    doLoadKeyedFixedArray ⟨false, false, true, false, false⟩ .hole =
        Except.ok HeapValue.undefinedV ∧
      doLoadKeyedFixedArray ⟨true, false, false, false, false⟩ .hole =
        Except.error DeoptReason.kHole ∧
      doLoadKeyedFixedArray ⟨true, true, false, false, false⟩ (.heapObj 3) =
        Except.error DeoptReason.kNotASmi :=
  ⟨(doLoadKeyedFixedArray_policy ⟨false, false, true, false, false⟩ .hole).1
      rfl rfl (Or.inl rfl),
   (doLoadKeyedFixedArray_policy ⟨true, false, false, false, false⟩ .hole).2.1
      rfl rfl,
   (doLoadKeyedFixedArray_policy ⟨true, true, false, false, false⟩
      (.heapObj 3)).2.2 rfl rfl rfl⟩


/-! ### C7 : DeoptimizeIf jump-table routing and de-duplication -/

/-- Deoptimizer::BailoutType. -/
inductive BailoutType
  | eager
  | lazy
  | soft
  deriving DecidableEq, Repr

/-- Modelled from the spec: Deoptimizer::JumpTableEntry (declared in the
deoptimizer header, not under src/) carries the target runtime entry
address, the associated deopt info (its reason), the bailout type and the
needs-frame flag. -/
structure JumpTableEntry where
  address : Nat
  reason : DeoptReason
  bailoutType : BailoutType
  needsFrame : Bool
  deriving DecidableEq, Repr

/-- Modelled from the spec: JumpTableEntry::IsEquivalentTo compares the
identifying fields of two entries. -/
def isEquivalentEntry (a b : JumpTableEntry) : Bool := a = b

/-- Global instrumentation state consulted by DeoptimizeIf. -/
structure DeoptConfig where
  traceDeopt : Bool
  isProfiling : Bool
  deriving DecidableEq, Repr

/-- The most recently added entry of the jump table (jump_table_.last). -/
def lastEntry : List JumpTableEntry → Option JumpTableEntry
  | [] => none
  | [a] => some a
  | _ :: b :: rest => lastEntry (b :: rest)

/-- The jump-table arm of LCodeGen::DeoptimizeIf: a new entry is appended
unless tracing or profiling is active, the table is non-empty, and the
new entry is equivalent to the most recently added entry. -/
def deoptJumpTableAdd (cfg : DeoptConfig) (tbl : List JumpTableEntry)
    (e : JumpTableEntry) : List JumpTableEntry :=
  match lastEntry tbl with
  | none => tbl ++ [e]
  | some last =>
    if cfg.traceDeopt || cfg.isProfiling || !(isEquivalentEntry e last) then
      tbl ++ [e]
    else tbl

/-- How one DeoptimizeIf guard is emitted. -/
inductive DeoptEmitKind
  | directCall
  | jumpToTableLast
  deriving DecidableEq, Repr

/-- LCodeGen::DeoptimizeIf, reduced to its emission routing: a direct
call is emitted only for an unconditional guard with a frame already
built; every other guard jumps to the (possibly merged) last jump-table
entry. -/
def deoptimizeIfEmit (cfg : DeoptConfig) (hasCondition frameIsBuilt : Bool)
    (tbl : List JumpTableEntry) (e : JumpTableEntry) :
    DeoptEmitKind × List JumpTableEntry :=
  if !hasCondition && frameIsBuilt then (.directCall, tbl)
  else (.jumpToTableLast, deoptJumpTableAdd cfg tbl e)

/-- Claim C7: a deopt guard that cannot emit a direct inline call
(condition present or frame not built) routes through the jump table;
three consecutive guards with identical entry data create exactly one
jump-table entry when no tracing/profiling is active; de-duplication
compares against the most recently added entry only (an equal entry
separated by a different one is appended again); and de-duplication is
disabled while tracing or profiling is active. -/
theorem deoptimizeIf_jumpTable_dedup (e e2 : JumpTableEntry)
    (hasCondition frameIsBuilt : Bool)
    (hroute : hasCondition = true ∨ frameIsBuilt = false)
    (hne : e ≠ e2) :
    (deoptimizeIfEmit ⟨false, false⟩ hasCondition frameIsBuilt [] e =
      (.jumpToTableLast, [e])) ∧
    (deoptJumpTableAdd ⟨false, false⟩
      (deoptJumpTableAdd ⟨false, false⟩
        (deoptJumpTableAdd ⟨false, false⟩ [] e) e) e = [e]) ∧
    (deoptJumpTableAdd ⟨false, false⟩
      (deoptJumpTableAdd ⟨false, false⟩
        (deoptJumpTableAdd ⟨false, false⟩ [] e) e2) e = [e, e2, e]) ∧
    (deoptJumpTableAdd ⟨true, false⟩
      (deoptJumpTableAdd ⟨true, false⟩ [] e) e = [e, e]) ∧
    (deoptJumpTableAdd ⟨false, true⟩
      (deoptJumpTableAdd ⟨false, true⟩ [] e) e = [e, e]) := by
  refine ⟨?_, ?_, ?_, ?_, ?_⟩
  · cases hasCondition <;> cases frameIsBuilt <;>
      simp_all [deoptimizeIfEmit, deoptJumpTableAdd, lastEntry]
  · simp [deoptJumpTableAdd, lastEntry, isEquivalentEntry]
  · simp [deoptJumpTableAdd, lastEntry, isEquivalentEntry, hne, Ne.symm hne]
  · simp [deoptJumpTableAdd, lastEntry]
  · simp [deoptJumpTableAdd, lastEntry]

/-- Witness for C7 at concrete entries: two distinct eager entries at
addresses 10 and 20. -/
theorem deoptimizeIf_jumpTable_dedup_witness :
    (deoptJumpTableAdd ⟨false, false⟩
      (deoptJumpTableAdd ⟨false, false⟩
        (deoptJumpTableAdd ⟨false, false⟩ []
          ⟨10, .kOverflow, .eager, false⟩)
        ⟨10, .kOverflow, .eager, false⟩)
      ⟨10, .kOverflow, .eager, false⟩ = [⟨10, .kOverflow, .eager, false⟩]) ∧
    (deoptJumpTableAdd ⟨false, false⟩
      (deoptJumpTableAdd ⟨false, false⟩
        (deoptJumpTableAdd ⟨false, false⟩ []
          ⟨10, .kOverflow, .eager, false⟩)
        ⟨20, .kHole, .eager, false⟩)
      ⟨10, .kOverflow, .eager, false⟩ =
      [⟨10, .kOverflow, .eager, false⟩, ⟨20, .kHole, .eager, false⟩,
       ⟨10, .kOverflow, .eager, false⟩]) :=
  ⟨(deoptimizeIf_jumpTable_dedup ⟨10, .kOverflow, .eager, false⟩
      ⟨20, .kHole, .eager, false⟩ true true (Or.inl rfl) (by decide)).2.1,
   (deoptimizeIf_jumpTable_dedup ⟨10, .kOverflow, .eager, false⟩
      ⟨20, .kHole, .eager, false⟩ true true (Or.inl rfl) (by decide)).2.2.1⟩

/-! ### C9 : EmitBranch / EmitGoto -/

/-- One emitted jump instruction: a conditional jump or an unconditional
jump to an assembly label identified by its physical block id. -/
inductive EmittedJump
  | condJ (c : Condition) (target : Nat)
  | uncondJ (target : Nat)
  deriving DecidableEq, Repr

/-- The chunk-level block queries used by branch emission:
LookupDestination resolves a block id to its physical destination, and
GetNextEmittedBlock is the id of the next block that will be emitted
(-1 when none). -/
structure ChunkModel where
  lookupDestination : Nat → Nat
  nextEmittedBlock : Int

/-- LCodeGen::IsNextEmittedBlock: the block resolves to the next emitted
block. -/
def isNextEmittedBlock (ch : ChunkModel) (block : Nat) : Bool :=
  (ch.lookupDestination block : Int) = ch.nextEmittedBlock

/-- LCodeGen::EmitGoto: an unconditional jump, elided when the resolved
destination is the next emitted block. -/
def emitGoto (ch : ChunkModel) (block : Nat) : List EmittedJump :=
  if !isNextEmittedBlock ch block then
    [.uncondJ (ch.lookupDestination block)]
  else []

/-- LCodeGen::EmitBranch: destinations leftBlock/rightBlock are the
already-resolved TrueDestination/FalseDestination; cc = none models
no_condition. -/
def emitBranch (ch : ChunkModel) (leftBlock rightBlock : Nat)
    (cc : Option Condition) : List EmittedJump :=
  if rightBlock = leftBlock ∨ cc = none then emitGoto ch leftBlock
  else
    match cc with
    | none => emitGoto ch leftBlock
    | some c =>
      if (leftBlock : Int) = ch.nextEmittedBlock then
        [.condJ (negateCondition c) rightBlock]
      else if (rightBlock : Int) = ch.nextEmittedBlock then
        [.condJ c leftBlock]
      else
        [.condJ c leftBlock, .uncondJ rightBlock]

/-- Count of conditional jumps in an emitted sequence. -/
def countCondJumps (js : List EmittedJump) : Nat :=
  js.countP (fun j => match j with | .condJ _ _ => true | _ => false)

/-- Count of unconditional jumps in an emitted sequence. -/
def countUncondJumps (js : List EmittedJump) : Nat :=
  js.countP (fun j => match j with | .uncondJ _ => true | _ => false)

/-- Claim C9: when both destinations of a conditional branch resolve to
the same physical block, exactly one unconditional jump and zero
conditional jumps are emitted, and even that jump is elided when the
common target is the next emitted block; when exactly one destination is
the next emitted block, a single conditional jump to the other
destination is emitted, negating the condition when the fallthrough is
the true target; otherwise one conditional plus one unconditional jump
are emitted.  The hypothesis hres states that the destinations are
already resolved (LookupDestination fixpoints). -/
theorem emitBranch_cases (ch : ChunkModel) (leftBlock rightBlock : Nat)
    (c : Condition) (hres : ch.lookupDestination leftBlock = leftBlock) :
    (rightBlock = leftBlock →
      (((leftBlock : Int) ≠ ch.nextEmittedBlock →
         emitBranch ch leftBlock rightBlock (some c) = [.uncondJ leftBlock] ∧
         countUncondJumps (emitBranch ch leftBlock rightBlock (some c)) = 1 ∧
         countCondJumps (emitBranch ch leftBlock rightBlock (some c)) = 0) ∧
       ((leftBlock : Int) = ch.nextEmittedBlock →
         emitBranch ch leftBlock rightBlock (some c) = []))) ∧
    (rightBlock ≠ leftBlock → (leftBlock : Int) = ch.nextEmittedBlock →
      emitBranch ch leftBlock rightBlock (some c) =
        [.condJ (negateCondition c) rightBlock]) ∧
    (rightBlock ≠ leftBlock → (leftBlock : Int) ≠ ch.nextEmittedBlock →
      (rightBlock : Int) = ch.nextEmittedBlock →
      emitBranch ch leftBlock rightBlock (some c) = [.condJ c leftBlock]) ∧
    (rightBlock ≠ leftBlock → (leftBlock : Int) ≠ ch.nextEmittedBlock →
      (rightBlock : Int) ≠ ch.nextEmittedBlock →
      emitBranch ch leftBlock rightBlock (some c) =
        [.condJ c leftBlock, .uncondJ rightBlock]) := by
  refine ⟨?_, ?_, ?_, ?_⟩
  · intro hsame
    constructor
    · intro hnext
      unfold emitBranch emitGoto isNextEmittedBlock
      rw [hres]
      simp [hsame, hnext, countUncondJumps, countCondJumps]
    · intro hnext
      unfold emitBranch emitGoto isNextEmittedBlock
      rw [hres]
      simp [hsame, hnext]
  · intro hne hnext
    unfold emitBranch
    simp [hne, hnext]
  · intro hne hlnext hrnext
    unfold emitBranch
    simp [hne, hlnext, hrnext]
  · intro hne hlnext hrnext
    unfold emitBranch
    simp [hne, hlnext, hrnext]

/-- Witness for C9 at a concrete chunk: identity destinations, next
emitted block 1; a branch with both destinations 2 emits one
unconditional jump, and a branch 1-vs-2 with fallthrough true target
emits one negated conditional jump. -/
theorem emitBranch_cases_witness :
    emitBranch ⟨id, 1⟩ 2 2 (some .equal) = [.uncondJ 2] ∧
      emitBranch ⟨id, 1⟩ 1 2 (some .equal) =
        [.condJ (negateCondition .equal) 2] :=
  ⟨((emitBranch_cases ⟨id, 1⟩ 2 2 .equal rfl).1 rfl).1 (by decide) |>.1,
   (emitBranch_cases ⟨id, 1⟩ 1 2 .equal rfl).2.1 (by decide) rfl⟩


/-! ### LOperands (shared by the safepoint and translation models) -/

/-- The kinds of LOperand observed by AddToTranslation and
RecordSafepoint, together with the resolved register / slot index, the
constant operand carrying the identity of the literal it resolves to,
and the environment materialization marker. -/
inductive LOperandK
  | stackSlot (i : Int)
  | doubleStackSlot (i : Int)
  | float32x4StackSlot (i : Int)
  | float64x2StackSlot (i : Int)
  | int32x4StackSlot (i : Int)
  | reg (r : Nat)
  | doubleReg (r : Nat)
  | float32x4Reg (r : Nat)
  | float64x2Reg (r : Nat)
  | int32x4Reg (r : Nat)
  | constantOp (handle : Nat)
  | materializationMarker
  deriving DecidableEq, Repr

/-! ### C3 : RecordSafepoint -/

/-- Safepoint::Kind as its two flag bits (kWithRegisters, kWithDoubles). -/
structure SafepointKind where
  withRegisters : Bool
  withDoubles : Bool
  deriving DecidableEq, Repr

/-- Modelled from the spec: LPointerMap::GetNormalizedOperands (declared
in the lithium layer, not under src/) normalizes duplicate operand
entries out of the pointer map. -/
def getNormalizedOperands (l : List LOperandK) : List LOperandK := l.dedup

/-- The loop body of LCodeGen::RecordSafepoint: walk the normalized
operands, record every stack slot via DefinePointerSlot, and record a
register via DefinePointerRegister only when the kind includes
kWithRegisters. -/
def recordSafepointEntries : List LOperandK → SafepointKind →
    List Int × List Nat
  | [], _ => ([], [])
  | p :: rest, k =>
    let acc := recordSafepointEntries rest k
    match p with
    | .stackSlot i => (i :: acc.1, acc.2)
    | .reg r => if k.withRegisters then (acc.1, r :: acc.2) else acc
    | _ => acc

/-- One Safepoint record as defined by DefineSafepoint at the current
assembler offset, populated by the RecordSafepoint loop. -/
structure SafepointRec where
  codeOffset : Nat
  pointerSlots : List Int
  pointerRegisters : List Nat
  deriving DecidableEq, Repr

/-- LCodeGen::RecordSafepoint: defines exactly one safepoint at the
current code offset whose entries come from the normalized pointer map. -/
def recordSafepoint (pointers : List LOperandK) (kind : SafepointKind)
    (pcOffset : Nat) : SafepointRec :=
  let ops := getNormalizedOperands pointers
  let acc := recordSafepointEntries ops kind
  ⟨pcOffset, acc.1, acc.2⟩

theorem recordSafepointEntries_mem_slots (ops : List LOperandK)
    (k : SafepointKind) (i : Int) :
    i ∈ (recordSafepointEntries ops k).1 ↔ LOperandK.stackSlot i ∈ ops := by
  induction ops with
  | nil => simp [recordSafepointEntries]
  | cons p rest ih =>
    cases p <;> simp [recordSafepointEntries, ih] <;>
      cases hk : k.withRegisters <;> simp [ih]

theorem recordSafepointEntries_mem_regs (ops : List LOperandK)
    (k : SafepointKind) (r : Nat) :
    r ∈ (recordSafepointEntries ops k).2 ↔
      (LOperandK.reg r ∈ ops ∧ k.withRegisters = true) := by
  induction ops with
  | nil => simp [recordSafepointEntries]
  | cons p rest ih =>
    cases p <;> simp [recordSafepointEntries, ih] <;>
      cases hk : k.withRegisters <;> simp [ih, hk] <;> tauto

theorem recordSafepointEntries_nodup (ops : List LOperandK)
    (k : SafepointKind) (h : ops.Nodup) :
    (recordSafepointEntries ops k).1.Nodup ∧
      (recordSafepointEntries ops k).2.Nodup := by
  induction ops with
  | nil => simp [recordSafepointEntries]
  | cons p rest ih =>
    rw [List.nodup_cons] at h
    have hrest := ih h.2
    cases p <;> simp only [recordSafepointEntries] <;>
      try exact hrest
    · refine ⟨List.nodup_cons.2 ⟨?_, hrest.1⟩, hrest.2⟩
      rw [recordSafepointEntries_mem_slots]
      exact h.1
    · by_cases hk : k.withRegisters = true
      · rw [if_pos hk]
        refine ⟨hrest.1, List.nodup_cons.2 ⟨?_, hrest.2⟩⟩
        rw [recordSafepointEntries_mem_regs]
        intro hc
        exact h.1 hc.1
      · rw [if_neg hk]
        exact hrest

/-- Claim C3: RecordSafepoint defines exactly one safepoint at the
instruction resulting code offset; its recorded entries are exactly the
normalized pointer map, with every normalized stack slot recorded,
register operands recorded exactly when the kind includes kWithRegisters,
nothing dropped and no duplicate retained. -/
theorem recordSafepoint_complete (pointers : List LOperandK)
    (kind : SafepointKind) (pcOffset : Nat) :
    (recordSafepoint pointers kind pcOffset).codeOffset = pcOffset ∧
    (∀ i : Int, i ∈ (recordSafepoint pointers kind pcOffset).pointerSlots ↔
      LOperandK.stackSlot i ∈ getNormalizedOperands pointers) ∧
    (∀ r : Nat,
      r ∈ (recordSafepoint pointers kind pcOffset).pointerRegisters ↔
      (LOperandK.reg r ∈ getNormalizedOperands pointers ∧
        kind.withRegisters = true)) ∧
    (recordSafepoint pointers kind pcOffset).pointerSlots.Nodup ∧
    (recordSafepoint pointers kind pcOffset).pointerRegisters.Nodup := by
  have hnd : (getNormalizedOperands pointers).Nodup := List.nodup_dedup _
  refine ⟨rfl, ?_, ?_, ?_, ?_⟩
  · intro i
    exact recordSafepointEntries_mem_slots _ kind i
  · intro r
    exact recordSafepointEntries_mem_regs _ kind r
  · exact (recordSafepointEntries_nodup _ kind hnd).1
  · exact (recordSafepointEntries_nodup _ kind hnd).2


/-! ### C2 : WriteTranslation / AddToTranslation round-trip -/

/-- SIMD128 value kinds (Translation::FLOAT32x4 / FLOAT64x2 / INT32x4). -/
inductive SIMDK
  | f32x4
  | f64x2
  | i32x4
  deriving DecidableEq, Repr

/-- The Translation command stream: one constructor per Translation
emission method used by the code generator. -/
inductive TransCmd
  | beginTranslation (frameCount jsFrameCount : Nat)
  | beginFrame (info height : Nat)
  | storeStackSlot (i : Int)
  | storeUint32StackSlot (i : Int)
  | storeInt32StackSlot (i : Int)
  | storeDoubleStackSlot (i : Int)
  | storeSIMD128StackSlot (i : Int) (k : SIMDK)
  | storeRegister (r : Nat)
  | storeUint32Register (r : Nat)
  | storeInt32Register (r : Nat)
  | storeDoubleRegister (r : Nat)
  | storeSIMD128Register (r : Nat) (k : SIMDK)
  | storeLiteral (idx : Nat)
  | beginCapturedObject (len : Nat)
  | beginArgumentsObject (len : Nat)
  | duplicateObject (objIdx : Nat)
  deriving DecidableEq, Repr

/-- One logical value slot of an LEnvironment: its operand together with
the HasTaggedValueAt / HasUint32ValueAt flags at its index. -/
structure EnvSlot where
  op : LOperandK
  isTagged : Bool
  isUint32 : Bool
  deriving DecidableEq, Repr

/-- Per-object-index metadata of an LEnvironment
(ObjectIsDuplicateAt / ObjectDuplicateOfAt / ObjectLengthAt /
ObjectIsArgumentsAt). -/
structure ObjDesc where
  isDuplicate : Bool
  duplicateOf : Nat
  length : Nat
  isArguments : Bool
  deriving DecidableEq, Repr

/-- One link of an LEnvironment chain: its frame identity, frame type,
translation size, value slots (the first translationSize entries are the
directly translated ones, the rest are dematerialized object fields) and
object metadata.  A whole environment is the list of links, innermost
first (environment, environment->outer(), ...). -/
structure EnvFrame where
  frameInfo : Nat
  isJSFunction : Bool
  translationSize : Nat
  slots : List EnvSlot
  objects : List ObjDesc
  deriving DecidableEq, Repr

/-- LCodeGen::DefineDeoptimizationLiteral: return the index of an
already-recorded identical literal, else append. -/
def litIndexOf : List Nat → Nat → Option Nat
  | [], _ => none
  | a :: rest, h => if a = h then some 0 else (litIndexOf rest h).map (· + 1)

/-- LCodeGen::DefineDeoptimizationLiteral (declared in the codegen
header): deduplicating insertion into the deoptimization literal pool. -/
def defineDeoptimizationLiteral (lits : List Nat) (h : Nat) :
    List Nat × Nat :=
  match litIndexOf lits h with
  | some i => (lits, i)
  | none => (lits ++ [h], lits.length)

/-- The state threaded by the encoder: emitted commands, literal pool,
object index, dematerialized index. -/
abbrev EncResult := List TransCmd × List Nat × Nat × Nat

/-- The loop of WriteTranslation / AddToTranslation over a run of `count`
environment values starting at slot index `start`, processing each value
with `f`. -/
def addRangeAux (f : List Nat → EnvSlot → Nat → Nat → Option EncResult)
    (e : EnvFrame) : Nat → Nat → List Nat → Nat → Nat → Option EncResult
  | _, 0, lits, objIdx, dematIdx => some ([], lits, objIdx, dematIdx)
  | start, c + 1, lits, objIdx, dematIdx =>
    match e.slots[start]? with
    | none => none
    | some s =>
      match f lits s objIdx dematIdx with
      | none => none
      | some (cmds, l1, oi, di) =>
        match addRangeAux f e (start + 1) c l1 oi di with
        | none => none
        | some (cmds2, l2, oi2, di2) => some (cmds ++ cmds2, l2, oi2, di2)

/-- LCodeGen::AddToTranslation: emit the translation command(s) for one
environment value.  A materialization marker either emits a
duplicate-object back-reference or begins a captured/arguments object
with its declared field count and recurses into exactly that many
dematerialized slots; other operands emit a single store command chosen
by operand kind and the tagged/uint32 flags.  The fuel bounds the object
nesting depth (the source recursion is bounded by the values list). -/
def addToTranslation : Nat → EnvFrame → List Nat → EnvSlot → Nat → Nat →
    Option EncResult
  | 0, _, _, _, _, _ => none
  | fuel + 1, e, lits, slot, objIdx, dematIdx =>
    match slot.op with
    | .materializationMarker =>
      match e.objects[objIdx]? with
      | none => none
      | some od =>
        if od.isDuplicate then
          some ([.duplicateObject od.duplicateOf], lits, objIdx + 1, dematIdx)
        else
          match addRangeAux (fun l s a b => addToTranslation fuel e l s a b) e
              (e.translationSize + dematIdx) od.length lits (objIdx + 1)
              (dematIdx + od.length) with
          | none => none
          | some (cmds, l1, oi, di) =>
            some ((if od.isArguments then
                TransCmd.beginArgumentsObject od.length
              else TransCmd.beginCapturedObject od.length) :: cmds, l1, oi, di)
    | .stackSlot i =>
      some ([if slot.isTagged then .storeStackSlot i
             else if slot.isUint32 then .storeUint32StackSlot i
             else .storeInt32StackSlot i], lits, objIdx, dematIdx)
    | .doubleStackSlot i =>
      some ([.storeDoubleStackSlot i], lits, objIdx, dematIdx)
    | .float32x4StackSlot i =>
      some ([.storeSIMD128StackSlot i .f32x4], lits, objIdx, dematIdx)
    | .float64x2StackSlot i =>
      some ([.storeSIMD128StackSlot i .f64x2], lits, objIdx, dematIdx)
    | .int32x4StackSlot i =>
      some ([.storeSIMD128StackSlot i .i32x4], lits, objIdx, dematIdx)
    | .reg r =>
      some ([if slot.isTagged then .storeRegister r
             else if slot.isUint32 then .storeUint32Register r
             else .storeInt32Register r], lits, objIdx, dematIdx)
    | .doubleReg r =>
      some ([.storeDoubleRegister r], lits, objIdx, dematIdx)
    | .float32x4Reg r =>
      some ([.storeSIMD128Register r .f32x4], lits, objIdx, dematIdx)
    | .float64x2Reg r =>
      some ([.storeSIMD128Register r .f64x2], lits, objIdx, dematIdx)
    | .int32x4Reg r =>
      some ([.storeSIMD128Register r .i32x4], lits, objIdx, dematIdx)
    | .constantOp h =>
      let r := defineDeoptimizationLiteral lits h
      some ([.storeLiteral r.2], r.1, objIdx, dematIdx)

/-- Fuel sufficient for any terminating encoding of one environment link:
nesting consumes one unit per begun object and every object occupies at
least one value slot. -/
def envFuel (e : EnvFrame) : Nat := e.slots.length + 1

/-- Modelled from the spec: LCodeGenBase::WriteTranslationFrame (not
under src/) emits one begin-frame command per chain link carrying the
frame identity and its height (the translation size), which the decoder
uses to know how many value commands follow. -/
def writeTranslationFrame (e : EnvFrame) : TransCmd :=
  .beginFrame e.frameInfo e.translationSize

/-- LCodeGen::WriteTranslation: recurse on the outer chain first, then
emit this link frame command followed by one command per value in
translation-size order, starting the per-link object and dematerialized
cursors at zero. -/
def writeTranslation : List EnvFrame → List Nat →
    Option (List TransCmd × List Nat)
  | [], lits => some ([], lits)
  | e :: outer, lits =>
    match writeTranslation outer lits with
    | none => none
    | some (cmdsOuter, l1) =>
      match addRangeAux (fun l s a b => addToTranslation (envFuel e) e l s a b)
          e 0 e.translationSize l1 0 0 with
      | none => none
      | some (cmds, l2, _, _) =>
        some (cmdsOuter ++ writeTranslationFrame e :: cmds, l2)

/-- The store kind of a decoded slot: the tag under which the
deoptimizer will reinterpret the recorded location. -/
inductive StoreKind
  | tagged
  | int32
  | uint32
  | double
  | simd (k : SIMDK)
  deriving DecidableEq, Repr

/-- The logical content of one environment slot as the deoptimizer
reconstructs it: a store kind with its stack-slot or register location, a
literal resolved through the literal pool, a captured/arguments object
with its fields, or a back-reference to an already-materialized object. -/
inductive DecodedValue
  | stackVal (k : StoreKind) (i : Int)
  | regVal (k : StoreKind) (r : Nat)
  | literal (v : Nat)
  | object (isArgs : Bool) (fields : List DecodedValue)
  | duplicate (objIdx : Nat)

/-- The store kind selected by the tagged/uint32 flags for plain
register / stack-slot operands. -/
def plainKind (slot : EnvSlot) : StoreKind :=
  if slot.isTagged then .tagged
  else if slot.isUint32 then .uint32
  else .int32

/-- The loop of the logical view over a run of environment values. -/
def viewRangeAux (f : EnvSlot → Nat → Nat → Option (DecodedValue × Nat × Nat))
    (e : EnvFrame) : Nat → Nat → Nat → Nat →
    Option (List DecodedValue × Nat × Nat)
  | _, 0, oi, di => some ([], oi, di)
  | start, c + 1, oi, di =>
    match e.slots[start]? with
    | none => none
    | some s =>
      match f s oi di with
      | none => none
      | some (v, oi1, di1) =>
        match viewRangeAux f e (start + 1) c oi1 di1 with
        | none => none
        | some (vs, oi2, di2) => some (v :: vs, oi2, di2)

/-- The logical {kind, location-or-literal} content of one environment
value, computed directly from the environment, with the same object and
dematerialized cursor discipline as the encoder. -/
def viewSlot : Nat → EnvFrame → EnvSlot → Nat → Nat →
    Option (DecodedValue × Nat × Nat)
  | 0, _, _, _, _ => none
  | fuel + 1, e, slot, oi, di =>
    match slot.op with
    | .materializationMarker =>
      match e.objects[oi]? with
      | none => none
      | some od =>
        if od.isDuplicate then some (.duplicate od.duplicateOf, oi + 1, di)
        else
          match viewRangeAux (fun s a b => viewSlot fuel e s a b) e
              (e.translationSize + di) od.length (oi + 1) (di + od.length) with
          | none => none
          | some (vs, oi2, di2) => some (.object od.isArguments vs, oi2, di2)
    | .stackSlot i => some (.stackVal (plainKind slot) i, oi, di)
    | .doubleStackSlot i => some (.stackVal .double i, oi, di)
    | .float32x4StackSlot i => some (.stackVal (.simd .f32x4) i, oi, di)
    | .float64x2StackSlot i => some (.stackVal (.simd .f64x2) i, oi, di)
    | .int32x4StackSlot i => some (.stackVal (.simd .i32x4) i, oi, di)
    | .reg r => some (.regVal (plainKind slot) r, oi, di)
    | .doubleReg r => some (.regVal .double r, oi, di)
    | .float32x4Reg r => some (.regVal (.simd .f32x4) r, oi, di)
    | .float64x2Reg r => some (.regVal (.simd .f64x2) r, oi, di)
    | .int32x4Reg r => some (.regVal (.simd .i32x4) r, oi, di)
    | .constantOp h => some (.literal h, oi, di)

/-- One decoded frame: the frame identity and the decoded value of every
logical slot of that link. -/
structure DecodedFrame where
  info : Nat
  values : List DecodedValue

/-- The logical view of one environment link. -/
def viewFrame (e : EnvFrame) : Option DecodedFrame :=
  match viewRangeAux (fun s a b => viewSlot (envFuel e) e s a b) e 0
      e.translationSize 0 0 with
  | none => none
  | some (vs, _, _) => some ⟨e.frameInfo, vs⟩

/-- The logical view of a whole environment chain, outermost link
first (the order in which WriteTranslation emits frames). -/
def viewChain : List EnvFrame → Option (List DecodedFrame)
  | [] => some []
  | e :: outer =>
    match viewChain outer with
    | none => none
    | some fs =>
      match viewFrame e with
      | none => none
      | some f => some (fs ++ [f])

/-- Modelled from the spec: decoding of a single non-object translation
command back into the logical value it stores, resolving literal indices
through the final literal pool. -/
def parseSimpleCmd (lits : List Nat) : TransCmd → Option DecodedValue
  | .storeStackSlot i => some (.stackVal .tagged i)
  | .storeUint32StackSlot i => some (.stackVal .uint32 i)
  | .storeInt32StackSlot i => some (.stackVal .int32 i)
  | .storeDoubleStackSlot i => some (.stackVal .double i)
  | .storeSIMD128StackSlot i k => some (.stackVal (.simd k) i)
  | .storeRegister r => some (.regVal .tagged r)
  | .storeUint32Register r => some (.regVal .uint32 r)
  | .storeInt32Register r => some (.regVal .int32 r)
  | .storeDoubleRegister r => some (.regVal .double r)
  | .storeSIMD128Register r k => some (.regVal (.simd k) r)
  | .storeLiteral idx => (lits[idx]?).map .literal
  | .duplicateObject k => some (.duplicate k)
  | _ => none

/-- Modelled from the spec: the deoptimizer-side decoder of a run of
`count` translated values.  A begin-captured/arguments-object command
consumes exactly its declared field count of subsequent value commands,
recursively; every other value command decodes via parseSimpleCmd.  The
fuel is bounded by the command-list length. -/
def parseValues (lits : List Nat) : Nat → Nat → List TransCmd →
    Option (List DecodedValue × List TransCmd)
  | _, 0, cmds => some ([], cmds)
  | 0, _ + 1, _ => none
  | _ + 1, _ + 1, [] => none
  | pf + 1, n + 1, c :: cmds =>
    match c with
    | .beginCapturedObject len =>
      match parseValues lits pf len cmds with
      | none => none
      | some (fields, rest) =>
        match parseValues lits pf n rest with
        | none => none
        | some (vs, rest2) => some (.object false fields :: vs, rest2)
    | .beginArgumentsObject len =>
      match parseValues lits pf len cmds with
      | none => none
      | some (fields, rest) =>
        match parseValues lits pf n rest with
        | none => none
        | some (vs, rest2) => some (.object true fields :: vs, rest2)
    | _ =>
      match parseSimpleCmd lits c with
      | none => none
      | some v =>
        match parseValues lits pf n cmds with
        | none => none
        | some (vs, rest) => some (v :: vs, rest)

/-- Modelled from the spec: the deoptimizer-side decoder of a whole
translation: one begin-frame command per link, whose height says how many
value commands follow for that link. -/
def decodeFrames (lits : List Nat) : Nat → List TransCmd →
    Option (List DecodedFrame)
  | _, [] => some []
  | 0, _ :: _ => none
  | ff + 1, c :: cmds =>
    match c with
    | .beginFrame info height =>
      match parseValues lits (2 * cmds.length + 1) height cmds with
      | none => none
      | some (vs, rest) =>
        match decodeFrames lits ff rest with
        | none => none
        | some fs => some (⟨info, vs⟩ :: fs)
    | _ => none

/-- Decoding entry point with fuel derived from the stream length. -/
def decodeTranslation (lits : List Nat) (cmds : List TransCmd) :
    Option (List DecodedFrame) :=
  decodeFrames lits (cmds.length + 1) cmds


/-- The literal pool only grows during encoding: l2 extends l1. -/
def litExt (l1 l2 : List Nat) : Prop := ∃ t, l2 = l1 ++ t

theorem litExt_refl (l : List Nat) : litExt l l := ⟨[], by simp⟩

theorem litExt_trans {a b c : List Nat} (h1 : litExt a b) (h2 : litExt b c) :
    litExt a c := by
  obtain ⟨t1, rfl⟩ := h1
  obtain ⟨t2, rfl⟩ := h2
  exact ⟨t1 ++ t2, by simp⟩

theorem litExt_lookup {l1 l2 : List Nat} (h : litExt l1 l2) {i v : Nat}
    (hg : l1[i]? = some v) : l2[i]? = some v := by
  obtain ⟨t, rfl⟩ := h
  rcases List.getElem?_eq_some.mp hg with ⟨hlt, _⟩
  rw [List.getElem?_append, if_pos hlt]
  exact hg

theorem litIndexOf_lookup :
    ∀ (lits : List Nat) (h i : Nat), litIndexOf lits h = some i →
      lits[i]? = some h := by
  intro lits
  induction lits with
  | nil => intro h i hx; simp [litIndexOf] at hx
  | cons a rest ih =>
    intro h i hx
    by_cases hah : a = h
    · simp [litIndexOf, hah] at hx
      subst hx hah
      simp
    · simp [litIndexOf, hah] at hx
      cases hr : litIndexOf rest h with
      | none => rw [hr] at hx; simp at hx
      | some j =>
        rw [hr] at hx
        simp at hx
        subst hx
        simpa using ih h j hr

theorem defineLit_spec (lits : List Nat) (h : Nat) :
    litExt lits (defineDeoptimizationLiteral lits h).1 ∧
      (defineDeoptimizationLiteral lits h).1[
        (defineDeoptimizationLiteral lits h).2]? = some h := by
  unfold defineDeoptimizationLiteral
  cases hx : litIndexOf lits h with
  | some i =>
    exact ⟨litExt_refl _, litIndexOf_lookup lits h i hx⟩
  | none =>
    refine ⟨⟨[h], rfl⟩, ?_⟩
    simp

/-- The round-trip conclusion for one encoded environment value. -/
def SlotConc (F : Nat) (e : EnvFrame) (lits : List Nat) (slot : EnvSlot)
    (oi di : Nat) (cmds : List TransCmd) (l2 : List Nat) (oi2 di2 : Nat) :
    Prop :=
  litExt lits l2 ∧ 1 ≤ cmds.length ∧
  ∃ v, viewSlot F e slot oi di = some (v, oi2, di2) ∧
    ∀ litsF, litExt l2 litsF →
      ∀ pf n rest vs rest2, cmds.length ≤ pf →
        parseValues litsF (pf - 1) n rest = some (vs, rest2) →
        parseValues litsF pf (n + 1) (cmds ++ rest) = some (v :: vs, rest2)

/-- The round-trip conclusion for an encoded run of environment values. -/
def RangeConc (F : Nat) (e : EnvFrame) (lits : List Nat)
    (start count oi di : Nat) (cmds : List TransCmd) (l2 : List Nat)
    (oi2 di2 : Nat) : Prop :=
  litExt lits l2 ∧ count ≤ cmds.length ∧
  ∃ vs, viewRangeAux (fun s a b => viewSlot F e s a b) e start count oi di =
      some (vs, oi2, di2) ∧
    ∀ litsF, litExt l2 litsF →
      ∀ pf rest, cmds.length ≤ pf →
        parseValues litsF pf count (cmds ++ rest) = some (vs, rest)

/-- A single non-object command followed by an already-parsed run parses
to the corresponding cons. -/
theorem parseValues_simple_step (litsF : List Nat) (c : TransCmd)
    (v : DecodedValue) (hc : parseSimpleCmd litsF c = some v)
    (pf n : Nat) (rest : List TransCmd) (vs : List DecodedValue)
    (rest2 : List TransCmd) (hpf : 1 ≤ pf)
    (hcont : parseValues litsF (pf - 1) n rest = some (vs, rest2)) :
    parseValues litsF pf (n + 1) (c :: rest) = some (v :: vs, rest2) := by
  obtain ⟨pf1, rfl⟩ : ∃ pf1, pf = pf1 + 1 :=
    ⟨pf - 1, (Nat.succ_pred_eq_of_pos hpf).symm⟩
  simp only [Nat.add_sub_cancel] at hcont
  cases c
  case storeLiteral idx =>
    cases hl : litsF[idx]? with
    | none => simp [parseSimpleCmd, hl] at hc
    | some a =>
      have hv : DecodedValue.literal a = v := by
        simpa [parseSimpleCmd, hl] using hc
      subst hv
      simp only [parseValues, hc, hcont]
  all_goals simp_all [parseValues, parseSimpleCmd]

/-- Helper: SlotConc for a slot encoded as a single state-preserving
command. -/
theorem SlotConc_of_simple (F : Nat) (e : EnvFrame) (lits : List Nat)
    (slot : EnvSlot) (oi di : Nat) (c : TransCmd) (v : DecodedValue)
    (hview : viewSlot F e slot oi di = some (v, oi, di))
    (hparse : ∀ litsF, litExt lits litsF → parseSimpleCmd litsF c = some v) :
    SlotConc F e lits slot oi di [c] lits oi di := by
  refine ⟨litExt_refl _, by simp, v, hview, ?_⟩
  intro litsF hext pf n rest vs rest2 hpf hcont
  exact parseValues_simple_step litsF c v (hparse litsF hext) pf n rest vs
    rest2 (by simpa using hpf) hcont

/-- Main induction: a successful AddToTranslation run (single value or
range) extends the literal pool monotonically, emits at least one command
per value, has a matching logical view, and its command stream parses
back to exactly that view. -/
theorem encode_parse_view (F : Nat) :
    (∀ e lits slot oi di cmds l2 oi2 di2,
        addToTranslation F e lits slot oi di = some (cmds, l2, oi2, di2) →
        SlotConc F e lits slot oi di cmds l2 oi2 di2) ∧
    (∀ e lits start count oi di cmds l2 oi2 di2,
        addRangeAux (fun l s a b => addToTranslation F e l s a b) e start
            count lits oi di = some (cmds, l2, oi2, di2) →
        RangeConc F e lits start count oi di cmds l2 oi2 di2) := by
  induction F with
  | zero =>
    constructor
    · intro e lits slot oi di cmds l2 oi2 di2 h
      simp [addToTranslation] at h
    · intro e lits start count oi di cmds l2 oi2 di2 h
      cases count with
      | zero =>
        simp only [addRangeAux] at h
        obtain ⟨rfl, rfl, rfl, rfl⟩ := by simpa using h
        exact ⟨litExt_refl _, by simp, [], by simp [viewRangeAux],
          fun litsF hext pf rest hpf => by simp [parseValues]⟩
      | succ c =>
        simp only [addRangeAux] at h
        cases hs : e.slots[start]? with
        | none => simp [hs] at h
        | some s => simp only [hs] at h; simp [addToTranslation] at h
  | succ F ih =>
    obtain ⟨ihSlot, ihRange⟩ := ih
    have hslot : ∀ e lits slot oi di cmds l2 oi2 di2,
        addToTranslation (F + 1) e lits slot oi di =
          some (cmds, l2, oi2, di2) →
        SlotConc (F + 1) e lits slot oi di cmds l2 oi2 di2 := by
      intro e lits slot oi di cmds l2 oi2 di2 h
      obtain ⟨op, tg, u32⟩ := slot
      cases op
      case stackSlot i =>
        simp only [addToTranslation] at h
        obtain ⟨rfl, rfl, rfl, rfl⟩ := by simpa using h
        refine SlotConc_of_simple _ _ _ _ _ _ _
          (.stackVal (plainKind ⟨.stackSlot i, tg, u32⟩) i)
          (by simp [viewSlot]) ?_
        intro litsF _
        cases tg <;> cases u32 <;> simp [parseSimpleCmd, plainKind]
      case doubleStackSlot i =>
        simp only [addToTranslation] at h
        obtain ⟨rfl, rfl, rfl, rfl⟩ := by simpa using h
        exact SlotConc_of_simple _ _ _ _ _ _ _ (.stackVal StoreKind.double i)
          (by simp [viewSlot]) (fun litsF _ => by simp [parseSimpleCmd])
      case float32x4StackSlot i =>
        simp only [addToTranslation] at h
        obtain ⟨rfl, rfl, rfl, rfl⟩ := by simpa using h
        exact SlotConc_of_simple _ _ _ _ _ _ _ (.stackVal (.simd .f32x4) i)
          (by simp [viewSlot]) (fun litsF _ => by simp [parseSimpleCmd])
      case float64x2StackSlot i =>
        simp only [addToTranslation] at h
        obtain ⟨rfl, rfl, rfl, rfl⟩ := by simpa using h
        exact SlotConc_of_simple _ _ _ _ _ _ _ (.stackVal (.simd .f64x2) i)
          (by simp [viewSlot]) (fun litsF _ => by simp [parseSimpleCmd])
      case int32x4StackSlot i =>
        simp only [addToTranslation] at h
        obtain ⟨rfl, rfl, rfl, rfl⟩ := by simpa using h
        exact SlotConc_of_simple _ _ _ _ _ _ _ (.stackVal (.simd .i32x4) i)
          (by simp [viewSlot]) (fun litsF _ => by simp [parseSimpleCmd])
      case reg r =>
        simp only [addToTranslation] at h
        obtain ⟨rfl, rfl, rfl, rfl⟩ := by simpa using h
        refine SlotConc_of_simple _ _ _ _ _ _ _
          (.regVal (plainKind ⟨.reg r, tg, u32⟩) r)
          (by simp [viewSlot]) ?_
        intro litsF _
        cases tg <;> cases u32 <;> simp [parseSimpleCmd, plainKind]
      case doubleReg r =>
        simp only [addToTranslation] at h
        obtain ⟨rfl, rfl, rfl, rfl⟩ := by simpa using h
        exact SlotConc_of_simple _ _ _ _ _ _ _ (.regVal StoreKind.double r)
          (by simp [viewSlot]) (fun litsF _ => by simp [parseSimpleCmd])
      case float32x4Reg r =>
        simp only [addToTranslation] at h
        obtain ⟨rfl, rfl, rfl, rfl⟩ := by simpa using h
        exact SlotConc_of_simple _ _ _ _ _ _ _ (.regVal (.simd .f32x4) r)
          (by simp [viewSlot]) (fun litsF _ => by simp [parseSimpleCmd])
      case float64x2Reg r =>
        simp only [addToTranslation] at h
        obtain ⟨rfl, rfl, rfl, rfl⟩ := by simpa using h
        exact SlotConc_of_simple _ _ _ _ _ _ _ (.regVal (.simd .f64x2) r)
          (by simp [viewSlot]) (fun litsF _ => by simp [parseSimpleCmd])
      case int32x4Reg r =>
        simp only [addToTranslation] at h
        obtain ⟨rfl, rfl, rfl, rfl⟩ := by simpa using h
        exact SlotConc_of_simple _ _ _ _ _ _ _ (.regVal (.simd .i32x4) r)
          (by simp [viewSlot]) (fun litsF _ => by simp [parseSimpleCmd])
      case constantOp hval =>
        simp only [addToTranslation] at h
        obtain ⟨rfl, rfl, rfl, rfl⟩ := by simpa using h
        obtain ⟨hext1, hlook⟩ := defineLit_spec lits hval
        refine ⟨hext1, by simp, .literal hval, by simp [viewSlot], ?_⟩
        intro litsF hext pf n rest vs rest2 hpf hcont
        refine parseValues_simple_step litsF _ _ ?_ pf n rest vs rest2
          (by simpa using hpf) hcont
        simp [parseSimpleCmd, litExt_lookup hext hlook]
      case materializationMarker =>
        simp only [addToTranslation] at h
        cases hobj : e.objects[oi]? with
        | none => simp [hobj] at h
        | some od =>
          simp only [hobj] at h
          by_cases hd : od.isDuplicate
          · rw [if_pos hd] at h
            obtain ⟨rfl, rfl, rfl, rfl⟩ := by simpa using h
            refine ⟨litExt_refl _, by simp, .duplicate od.duplicateOf, ?_, ?_⟩
            · simp [viewSlot, hobj, hd]
            · intro litsF hext pf n rest vs rest2 hpf hcont
              exact parseValues_simple_step litsF _ _
                (by simp [parseSimpleCmd]) pf n rest vs rest2
                (by simpa using hpf) hcont
          · rw [if_neg hd] at h
            cases hr : addRangeAux
                (fun l s a b => addToTranslation F e l s a b) e
                (e.translationSize + di) od.length lits (oi + 1)
                (di + od.length) with
            | none => simp [hr] at h
            | some res =>
              obtain ⟨cf, l1, o1, d1⟩ := res
              simp only [hr] at h
              obtain ⟨rfl, rfl, rfl, rfl⟩ := by simpa using h
              obtain ⟨hextr, hlenr, vsf, hviewr, hparser⟩ :=
                ihRange e lits (e.translationSize + di) od.length (oi + 1)
                  (di + od.length) cf l1 o1 d1 hr
              refine ⟨hextr, by simp, .object od.isArguments vsf, ?_, ?_⟩
              · simp only [viewSlot, hobj]
                rw [if_neg hd, hviewr]
              · intro litsF hext pf n rest vs rest2 hpf hcont
                simp only [List.length_cons] at hpf
                obtain ⟨pf1, rfl⟩ : ∃ pf1, pf = pf1 + 1 :=
                  ⟨pf - 1, (Nat.succ_pred_eq_of_pos (by omega)).symm⟩
                simp only [Nat.add_sub_cancel] at hcont
                have hfield : parseValues litsF pf1 od.length
                    (cf ++ rest) = some (vsf, rest) :=
                  hparser litsF hext pf1 rest (by omega)
                cases ha : od.isArguments <;>
                  simp only [ha, if_true, if_false, List.cons_append,
                    Bool.false_eq_true, parseValues, List.append_eq,
                    hfield, hcont]
    have hrange : ∀ (e : EnvFrame) (count : Nat),
        ∀ lits start oi di cmds l2 oi2 di2,
        addRangeAux (fun l s a b => addToTranslation (F + 1) e l s a b) e
            start count lits oi di = some (cmds, l2, oi2, di2) →
        RangeConc (F + 1) e lits start count oi di cmds l2 oi2 di2 := by
      intro e count
      induction count with
      | zero =>
        intro lits start oi di cmds l2 oi2 di2 h
        simp only [addRangeAux] at h
        obtain ⟨rfl, rfl, rfl, rfl⟩ := by simpa using h
        exact ⟨litExt_refl _, by simp, [], by simp [viewRangeAux],
          fun litsF hext pf rest hpf => by simp [parseValues]⟩
      | succ c ihc =>
        intro lits start oi di cmds l2 oi2 di2 h
        simp only [addRangeAux] at h
        cases hs : e.slots[start]? with
        | none => simp [hs] at h
        | some s =>
          simp only [hs] at h
          cases hf : addToTranslation (F + 1) e lits s oi di with
          | none => simp [hf] at h
          | some res1 =>
            obtain ⟨cv, l1, o1, d1⟩ := res1
            simp only [hf] at h
            cases hr : addRangeAux
                (fun l s a b => addToTranslation (F + 1) e l s a b) e
                (start + 1) c l1 o1 d1 with
            | none => simp [hr] at h
            | some res2 =>
              obtain ⟨cr, l2x, o2x, d2x⟩ := res2
              simp only [hr] at h
              obtain ⟨rfl, rfl, rfl, rfl⟩ := by simpa using h
              obtain ⟨hext1, hlen1, v, hview1, hparse1⟩ :=
                hslot e lits s oi di cv l1 o1 d1 hf
              obtain ⟨hext2, hlen2, vsr, hview2, hparse2⟩ :=
                ihc l1 (start + 1) o1 d1 cr l2x o2x d2x hr
              refine ⟨litExt_trans hext1 hext2, ?_, v :: vsr, ?_, ?_⟩
              · simp only [List.length_append]
                omega
              · simp only [viewRangeAux, hs, hview1, hview2]
              · intro litsF hext pf rest hpf
                rw [List.append_assoc]
                simp only [List.length_append] at hpf
                refine hparse1 litsF (litExt_trans hext2 hext) pf c
                  (cr ++ rest) vsr rest (by omega) ?_
                exact hparse2 litsF hext (pf - 1) rest (by omega)
    exact ⟨hslot, fun e lits start count oi di cmds l2 oi2 di2 h =>
      hrange e count lits start oi di cmds l2 oi2 di2 h⟩

/-- A successful WriteTranslation of an environment chain extends the
literal pool, has a logical view, and decodes (in front of any
already-decodable continuation) to exactly that view. -/
theorem writeTranslation_frames :
    ∀ (env : List EnvFrame) (lits0 : List Nat) (C : List TransCmd)
      (l1 : List Nat),
      writeTranslation env lits0 = some (C, l1) →
      litExt lits0 l1 ∧
      ∃ fs, viewChain env = some fs ∧
        ∀ litsF, litExt l1 litsF →
          ∀ rest gs,
            (∀ ff2, rest.length < ff2 →
              decodeFrames litsF ff2 rest = some gs) →
            ∀ ff, C.length + rest.length < ff →
              decodeFrames litsF ff (C ++ rest) = some (fs ++ gs) := by
  intro env
  induction env with
  | nil =>
    intro lits0 C l1 h
    simp only [writeTranslation] at h
    obtain ⟨rfl, rfl⟩ := by simpa using h
    refine ⟨litExt_refl _, [], by simp [viewChain], ?_⟩
    intro litsF hext rest gs hcont ff hff
    simpa using hcont ff (by simpa using hff)
  | cons e outer ih =>
    intro lits0 C l1 h
    simp only [writeTranslation] at h
    cases ho : writeTranslation outer lits0 with
    | none => simp [ho] at h
    | some resO =>
      obtain ⟨cOuter, lmid⟩ := resO
      simp only [ho] at h
      cases hrr : addRangeAux
          (fun l s a b => addToTranslation (envFuel e) e l s a b) e 0
          e.translationSize lmid 0 0 with
      | none => simp [hrr] at h
      | some resR =>
        obtain ⟨cSlots, l1x, ox, dx⟩ := resR
        simp only [hrr] at h
        obtain ⟨rfl, rfl⟩ := by simpa using h
        obtain ⟨hextO, fsOuter, hviewO, hparseO⟩ := ih lits0 cOuter lmid ho
        obtain ⟨hextR, hlenR, vs, hviewR, hparseR⟩ :=
          (encode_parse_view (envFuel e)).2 e lmid 0 e.translationSize 0 0
            cSlots l1x ox dx hrr
        refine ⟨litExt_trans hextO hextR, fsOuter ++ [⟨e.frameInfo, vs⟩],
          ?_, ?_⟩
        · simp only [viewChain, hviewO, viewFrame, hviewR]
        · intro litsF hext rest gs hcont ff hff
          have hmid : litExt lmid litsF := litExt_trans hextR hext
          have hstep : ∀ ff2,
              (writeTranslationFrame e :: cSlots ++ rest).length < ff2 →
              decodeFrames litsF ff2
                (writeTranslationFrame e :: cSlots ++ rest) =
                some (⟨e.frameInfo, vs⟩ :: gs) := by
            intro ff2 hff2
            simp only [List.length_cons, List.length_append] at hff2
            obtain ⟨f2, rfl⟩ : ∃ f2, ff2 = f2 + 1 :=
              ⟨ff2 - 1, (Nat.succ_pred_eq_of_pos (by omega)).symm⟩
            simp only [writeTranslationFrame, decodeFrames, List.append_eq]
            rw [hparseR litsF hext (2 * (cSlots ++ rest).length + 1) rest
              (by simp [List.length_append]; omega)]
            simp only [hcont f2 (by omega)]
          have hmain := hparseO litsF hmid
            (writeTranslationFrame e :: cSlots ++ rest)
            (⟨e.frameInfo, vs⟩ :: gs) hstep ff
            (by simp only [List.length_append, List.length_cons] at hff ⊢
                omega)
          simpa using hmain

/-- Claim C2: encoding an environment chain through
WriteTranslation/AddToTranslation and decoding the resulting command
stream reproduces, for every logical slot of every link, the same
{kind, location-or-literal} content as the environment view: captured and
arguments objects emit a begin command carrying their declared field
count whose decoding consumes exactly that many subsequent slots, and an
object marked as a duplicate is encoded as a duplicate-object
back-reference instead of re-emitting its fields. -/
theorem writeTranslation_roundTrip (env : List EnvFrame)
    (cmds : List TransCmd) (lits : List Nat)
    (h : writeTranslation env [] = some (cmds, lits)) :
    ∃ fs, viewChain env = some fs ∧ decodeTranslation lits cmds = some fs := by
  obtain ⟨-, fs, hview, hparse⟩ := writeTranslation_frames env [] cmds lits h
  refine ⟨fs, hview, ?_⟩
  have hempty : ∀ ff2, (0 : Nat) < ff2 →
      decodeFrames lits ff2 [] = some [] := by
    intro ff2 _
    cases ff2 <;> simp [decodeFrames]
  have := hparse lits (litExt_refl _) [] [] (by simpa using hempty)
    (cmds.length + 1) (by simp)
  simpa [decodeTranslation] using this

/-- Witness environment chain for C2: an inner JS frame with a uint32
stack slot, a captured object of two fields (a literal and a double
register), a duplicate back-reference to that object and a deduplicated
literal, on top of an outer frame with one tagged register. -/
def envChainW : List EnvFrame :=
  [⟨9, true, 4,
    [⟨.stackSlot 2, false, true⟩, ⟨.materializationMarker, true, false⟩,
     ⟨.materializationMarker, true, false⟩, ⟨.constantOp 5, true, false⟩,
     ⟨.constantOp 5, true, false⟩, ⟨.doubleReg 2, false, false⟩],
    [⟨false, 0, 2, false⟩, ⟨true, 0, 0, false⟩]⟩,
   ⟨7, true, 1, [⟨.reg 3, true, false⟩], []⟩]

/-- The command stream WriteTranslation emits for envChainW. -/
def cmdsW : List TransCmd :=
  [.beginFrame 7 1, .storeRegister 3, .beginFrame 9 4,
   .storeUint32StackSlot 2, .beginCapturedObject 2, .storeLiteral 0,
   .storeDoubleRegister 2, .duplicateObject 0, .storeLiteral 0]

/-- Witness for C2 at the concrete environment envChainW. -/
theorem writeTranslation_roundTrip_witness :
    ∃ fs, viewChain envChainW = some fs ∧
      decodeTranslation [5] cmdsW = some fs :=
  writeTranslation_roundTrip envChainW cmdsW [5] rfl


/-! ### C4 : RegisterEnvironmentForDeoptimization idempotence -/

/-- Safepoint::DeoptMode. -/
inductive DeoptMode
  | noLazyDeopt
  | lazyDeopt
  deriving DecidableEq, Repr

/-- The mutable registration state carried by one LEnvironment object:
the has-been-used flag and, once registered, its
{deoptimization index, translation index, pc offset}, together with the
immutable chain data it encodes to. -/
structure EnvObj where
  hasBeenUsed : Bool
  registration : Option (Nat × Nat × Int)
  frames : List EnvFrame
  deriving DecidableEq, Repr

/-- The code-generator tables touched by environment registration: the
translation command buffer, the deoptimization literal pool, and the
number of deoptimization-table entries. -/
structure DeoptTableState where
  translations : List TransCmd
  literals : List Nat
  deoptimizationsCount : Nat
  deriving DecidableEq, Repr

/-- The frame count of an environment chain (the loop over outer()). -/
def frameCountOf (env : List EnvFrame) : Nat := env.length

/-- The JS_FUNCTION frame count of an environment chain. -/
def jsFrameCountOf (env : List EnvFrame) : Nat :=
  (env.filter (·.isJSFunction)).length

/-- LCodeGen::RegisterEnvironmentForDeoptimization: set has_been_used;
if the environment is not yet registered, build one Translation (the
Translation constructor emits a begin command carrying the frame counts,
then WriteTranslation emits the frames), register the environment with
the next deoptimization index, the translation index, and the pc offset
(only under lazy deopt), and append it to the deoptimization table. -/
def registerEnvironmentForDeoptimization (mode : DeoptMode) (pcOffset : Int)
    (st : DeoptTableState) (env : EnvObj) :
    Option (DeoptTableState × EnvObj) :=
  let env1 : EnvObj := ⟨true, env.registration, env.frames⟩
  match env.registration with
  | some _ => some (st, env1)
  | none =>
    match writeTranslation env.frames st.literals with
    | none => none
    | some (cmds, lits2) =>
      some (⟨st.translations ++
          .beginTranslation (frameCountOf env.frames)
            (jsFrameCountOf env.frames) :: cmds,
        lits2, st.deoptimizationsCount + 1⟩,
        ⟨true, some (st.deoptimizationsCount, st.translations.length,
          if mode = .lazyDeopt then pcOffset else -1), env.frames⟩)

/-- Claim C4: registering the same environment object twice yields one
translation and one deoptimization-table entry, not two: the second call
is a no-op on the tables and on the stored registration; a first call on
an unregistered environment adds exactly one deoptimization entry; a call
on an already-registered environment changes nothing but the
has-been-used flag. -/
theorem registerEnvironment_idempotent (mode : DeoptMode) (pcOffset : Int)
    (st st2 : DeoptTableState) (env env2 : EnvObj)
    (h : registerEnvironmentForDeoptimization mode pcOffset st env =
      some (st2, env2)) :
    registerEnvironmentForDeoptimization mode pcOffset st2 env2 =
      some (st2, env2) ∧
    (env.registration = none →
      st2.deoptimizationsCount = st.deoptimizationsCount + 1) ∧
    (∀ r, env.registration = some r →
      st2 = st ∧ env2 = ⟨true, some r, env.frames⟩) := by
  unfold registerEnvironmentForDeoptimization at h ⊢
  cases hreg : env.registration with
  | some r =>
    simp only [hreg] at h
    obtain ⟨rfl, rfl⟩ := by simpa using h
    simp [hreg]
  | none =>
    simp only [hreg] at h
    cases hw : writeTranslation env.frames st.literals with
    | none => simp [hw] at h
    | some res =>
      obtain ⟨cmds, lits2⟩ := res
      simp only [hw] at h
      obtain ⟨rfl, rfl⟩ := by simpa using h
      simp

/-- Witness for C4: registering a one-frame environment into empty
tables, then noting the second registration is a no-op. -/
theorem registerEnvironment_idempotent_witness :
    registerEnvironmentForDeoptimization .noLazyDeopt 11
        ⟨[.beginTranslation 1 1, .beginFrame 7 1, .storeRegister 3], [], 1⟩
        ⟨true, some (0, 0, -1), [⟨7, true, 1, [⟨.reg 3, true, false⟩], []⟩]⟩ =
      some (⟨[.beginTranslation 1 1, .beginFrame 7 1, .storeRegister 3],
          [], 1⟩,
        ⟨true, some (0, 0, -1),
          [⟨7, true, 1, [⟨.reg 3, true, false⟩], []⟩]⟩) ∧
    (1 : Nat) = 0 + 1 :=
  ⟨(registerEnvironment_idempotent .noLazyDeopt 11 ⟨[], [], 0⟩
      ⟨[.beginTranslation 1 1, .beginFrame 7 1, .storeRegister 3], [], 1⟩
      ⟨false, none, [⟨7, true, 1, [⟨.reg 3, true, false⟩], []⟩]⟩
      ⟨true, some (0, 0, -1), [⟨7, true, 1, [⟨.reg 3, true, false⟩], []⟩]⟩
      rfl).1,
   (registerEnvironment_idempotent .noLazyDeopt 11 ⟨[], [], 0⟩
      ⟨[.beginTranslation 1 1, .beginFrame 7 1, .storeRegister 3], [], 1⟩
      ⟨false, none, [⟨7, true, 1, [⟨.reg 3, true, false⟩], []⟩]⟩
      ⟨true, some (0, 0, -1), [⟨7, true, 1, [⟨.reg 3, true, false⟩], []⟩]⟩
      rfl).2.1 rfl⟩


/-! ### C10 : snapshot blob creation and extraction -/

/-- Modelled from the spec: the snapshot blob layout constants declared
in the snapshot header (not under src/): kInt32Size. -/
def kInt32Size : Nat := 4

/-- Modelled from the spec: number of paged spaces whose first-page sizes
head the blob (FIRST_PAGED_SPACE .. LAST_PAGED_SPACE). -/
def kNumPagedSpaces : Nat := 3

/-- Modelled from the spec: offset of the first-page-size table. -/
def kFirstPageSizesOffset : Nat := 0

/-- Modelled from the spec: offset of the context count field. -/
def kNumberOfContextsOffset : Nat :=
  kFirstPageSizesOffset + kNumPagedSpaces * kInt32Size

/-- Modelled from the spec: offset of the first context-offset table
entry. -/
def kFirstContextOffsetOffset : Nat := kNumberOfContextsOffset + kInt32Size

/-- Modelled from the spec: Snapshot::ContextSnapshotOffsetOffset. -/
def contextSnapshotOffsetOffset (i : Nat) : Nat :=
  kFirstContextOffsetOffset + i * kInt32Size

/-- Modelled from the spec: Snapshot::StartupSnapshotOffset — the payload
area begins right after the context-offset table. -/
def startupSnapshotOffset (numContexts : Nat) : Nat :=
  contextSnapshotOffsetOffset numContexts

/-- A v8::StartupData blob: its byte contents as a function and its
raw_size. -/
structure StartupData where
  data : Nat → Nat
  rawSize : Int

/-- memcpy of a byte list into a buffer at an offset. -/
def writeAt (f : Nat → Nat) (off : Nat) (src : List Nat) : Nat → Nat :=
  fun j => if off ≤ j ∧ j < off + src.length then src.getD (j - off) 0 else f j

/-- The four little-endian bytes of an int32 value. -/
def int32LE (v : Nat) : List Nat :=
  [v % 256, v / 256 % 256, v / 256 ^ 2 % 256, v / 256 ^ 3 % 256]

/-- memcpy of an int32 out of a buffer (little-endian reassembly). -/
def readInt32LE (f : Nat → Nat) (off : Nat) : Nat :=
  f off + 256 * f (off + 1) + 256 ^ 2 * f (off + 2) + 256 ^ 3 * f (off + 3)

/-- Total payload length of a list of context snapshots. -/
def sumLen (l : List (List Nat)) : Nat := (l.map List.length).sum

/-- The context loop of Snapshot::CreateSnapshotBlob: for each context
snapshot, record the running payload offset in the context-offset table
and append the context payload. -/
def writeContextsLoop : (Nat → Nat) → Nat → Nat → List (List Nat) →
    (Nat → Nat) × Nat
  | data, _, payloadOffset, [] => (data, payloadOffset)
  | data, i, payloadOffset, c :: rest =>
    let d1 := writeAt data (contextSnapshotOffsetOffset i)
      (int32LE payloadOffset)
    let d2 := writeAt d1 payloadOffset c
    writeContextsLoop d2 (i + 1) (payloadOffset + c.length) rest

/-- Snapshot::CreateSnapshotBlob: lay out first-page sizes, the context
count, the startup payload, then per-context table entries and payloads. -/
def createSnapshotBlob (pageSizes : List Nat) (startup : List Nat)
    (contexts : List (List Nat)) : StartupData :=
  let numContexts := contexts.length
  let startupOffset := startupSnapshotOffset numContexts
  let totalLength := startupOffset + startup.length + sumLen contexts
  let d1 := writeAt (fun _ => 0) kFirstPageSizesOffset
    (pageSizes.take (kNumPagedSpaces * kInt32Size))
  let d2 := writeAt d1 kNumberOfContextsOffset (int32LE numContexts)
  let d3 := writeAt d2 startupOffset startup
  let r := writeContextsLoop d3 0 (startupOffset + startup.length) contexts
  ⟨r.1, (totalLength : Int)⟩

/-- Snapshot::ExtractNumContexts, with its CHECK as a guard. -/
def extractNumContexts (blob : StartupData) : Option Nat :=
  if (kNumberOfContextsOffset : Int) < blob.rawSize then
    some (readInt32LE blob.data kNumberOfContextsOffset)
  else none

/-- Snapshot::ExtractStartupData: the startup payload runs from the
startup offset up to the first context-offset table entry; CHECKs as
guards; a Vector with the computed (possibly negative) length. -/
def extractStartupData (blob : StartupData) : Option (List Nat) :=
  match extractNumContexts blob with
  | none => none
  | some n =>
    let startupOffset := startupSnapshotOffset n
    if (startupOffset : Int) < blob.rawSize then
      let firstContextOffset :=
        readInt32LE blob.data (contextSnapshotOffsetOffset 0)
      if (firstContextOffset : Int) < blob.rawSize then
        let startupLength : Int :=
          (firstContextOffset : Int) - (startupOffset : Int)
        some ((List.range startupLength.toNat).map
          (fun k => blob.data (startupOffset + k)))
      else none
    else none

/-- Snapshot::ExtractContextData: the i-th context payload runs from its
table entry to the next table entry, or to raw_size for the last
context. -/
def extractContextData (blob : StartupData) (index : Nat) :
    Option (List Nat) :=
  match extractNumContexts blob with
  | none => none
  | some n =>
    if index < n then
      let contextOffset :=
        readInt32LE blob.data (contextSnapshotOffsetOffset index)
      if index = n - 1 then
        some ((List.range (blob.rawSize - (contextOffset : Int)).toNat).map
          (fun k => blob.data (contextOffset + k)))
      else
        let nextOffset :=
          readInt32LE blob.data (contextSnapshotOffsetOffset (index + 1))
        if (nextOffset : Int) < blob.rawSize then
          some ((List.range (nextOffset - contextOffset)).map
            (fun k => blob.data (contextOffset + k)))
        else none
    else none

/-- Counterexample for C10: with an empty context list, the blob has no
context-offset table, so ExtractStartupData misreads the first four
startup payload bytes as the first context offset and computes a negative
startup length: for startup payload [7, 0, 0, 0] it returns the empty
vector instead of the payload. -/
theorem createSnapshotBlob_empty_counterexample :
    extractStartupData (createSnapshotBlob [] [7, 0, 0, 0] []) = some [] ∧
      some ([] : List Nat) ≠ some [7, 0, 0, 0] := by
  constructor
  · rfl
  · decide


theorem writeAt_inside (f : Nat → Nat) (off : Nat) (src : List Nat)
    (j : Nat) (h1 : off ≤ j) (h2 : j < off + src.length) :
    writeAt f off src j = src.getD (j - off) 0 := by
  unfold writeAt
  rw [if_pos ⟨h1, h2⟩]

theorem writeAt_outside (f : Nat → Nat) (off : Nat) (src : List Nat)
    (j : Nat) (h : j < off ∨ off + src.length ≤ j) :
    writeAt f off src j = f j := by
  unfold writeAt
  rw [if_neg]
  intro hc
  omega

theorem int32LE_length (v : Nat) : (int32LE v).length = 4 := rfl

theorem readInt32LE_int32LE (f : Nat → Nat) (off : Nat) (v : Nat)
    (hv : v < 2 ^ 32) :
    readInt32LE (writeAt f off (int32LE v)) off = v := by
  have h0 : writeAt f off (int32LE v) off = v % 256 := by
    rw [writeAt_inside f off _ off (Nat.le_refl _)
      (by rw [int32LE_length]; omega)]
    simp [int32LE]
  have h1 : writeAt f off (int32LE v) (off + 1) = v / 256 % 256 := by
    rw [writeAt_inside f off _ (off + 1) (by omega)
      (by rw [int32LE_length]; omega)]
    simp [int32LE]
  have h2 : writeAt f off (int32LE v) (off + 2) = v / 256 ^ 2 % 256 := by
    rw [writeAt_inside f off _ (off + 2) (by omega)
      (by rw [int32LE_length]; omega)]
    simp [int32LE]
  have h3 : writeAt f off (int32LE v) (off + 3) = v / 256 ^ 3 % 256 := by
    rw [writeAt_inside f off _ (off + 3) (by omega)
      (by rw [int32LE_length]; omega)]
    simp [int32LE]
  unfold readInt32LE
  rw [h0, h1, h2, h3]
  norm_num
  omega

theorem readInt32LE_congr (f g : Nat → Nat) (off : Nat)
    (h : ∀ k, k < 4 → f (off + k) = g (off + k)) :
    readInt32LE f off = readInt32LE g off := by
  have h0 := h 0 (by norm_num)
  have h1 := h 1 (by norm_num)
  have h2 := h 2 (by norm_num)
  have h3 := h 3 (by norm_num)
  rw [Nat.add_zero] at h0
  unfold readInt32LE
  rw [h0, h1, h2, h3]

theorem range_map_getD (l : List Nat) :
    (List.range l.length).map (fun k => l.getD k 0) = l := by
  apply List.ext_getElem
  · simp
  · intro i h1 h2
    simp only [List.getElem_map, List.getElem_range]
    rw [List.getD_eq_getElem l 0 h2]

theorem map_range_pointwise (f : Nat → Nat) (off : Nat) (l : List Nat)
    (h : ∀ k, k < l.length → f (off + k) = l.getD k 0) :
    (List.range l.length).map (fun k => f (off + k)) = l := by
  have heq : (List.range l.length).map (fun k => f (off + k)) =
      (List.range l.length).map (fun k => l.getD k 0) := by
    apply List.map_congr_left
    intro a ha
    exact h a (List.mem_range.mp ha)
  rw [heq, range_map_getD]

theorem sumLen_cons (c : List Nat) (rest : List (List Nat)) :
    sumLen (c :: rest) = c.length + sumLen rest := by
  simp [sumLen]

theorem sumLen_take_le (l : List (List Nat)) (k : Nat) :
    sumLen (l.take k) ≤ sumLen l := by
  induction l generalizing k with
  | nil => simp
  | cons c rest ih =>
    cases k with
    | zero => simp [sumLen]
    | succ k1 =>
      simp only [List.take_succ_cons, sumLen_cons]
      have := ih k1
      omega

theorem sumLen_take_succ (l : List (List Nat)) (k : Nat)
    (hk : k < l.length) :
    sumLen (l.take (k + 1)) = sumLen (l.take k) + (l[k]?.getD []).length := by
  induction l generalizing k with
  | nil => simp at hk
  | cons c rest ih =>
    cases k with
    | zero => simp [sumLen_cons, sumLen]
    | succ k1 =>
      simp only [List.take_succ_cons, sumLen_cons, List.getElem?_cons_succ]
      have := ih k1 (by simpa using hk)
      omega

theorem sumLen_take_length (l : List (List Nat)) :
    sumLen (l.take l.length) = sumLen l := by
  simp

theorem sumLen_take_lt (l : List (List Nat)) (hne : ∀ c ∈ l, c ≠ [])
    (k : Nat) (hk : k < l.length) : sumLen (l.take k) < sumLen l := by
  have h1 := sumLen_take_succ l k hk
  have h2 := sumLen_take_le l (k + 1)
  have h3 : l[k]?.getD [] ∈ l := by
    rw [List.getElem?_eq_getElem hk]
    exact List.getElem_mem hk
  have h4 : l[k]?.getD [] ≠ [] := hne _ h3
  have h5 : 0 < (l[k]?.getD []).length := List.length_pos.mpr h4
  omega

theorem cso_linear (x : Nat) :
    contextSnapshotOffsetOffset x = 16 + 4 * x := by
  simp [contextSnapshotOffsetOffset, kFirstContextOffsetOffset,
    kNumberOfContextsOffset, kFirstPageSizesOffset, kNumPagedSpaces,
    kInt32Size]
  ring

/-- Invariant of the context-writing loop of CreateSnapshotBlob: the
final payload cursor, preservation of bytes below the remaining table
region and of bytes in the gap between table end and payload start, the
recorded table entries, and the written payload bytes. -/
theorem writeContextsLoop_spec :
    ∀ (cs : List (List Nat)) (d : Nat → Nat) (i p : Nat),
      contextSnapshotOffsetOffset (i + cs.length) ≤ p →
      p + sumLen cs < 2 ^ 32 →
      (writeContextsLoop d i p cs).2 = p + sumLen cs ∧
      (∀ j, j < contextSnapshotOffsetOffset i ∨
          (contextSnapshotOffsetOffset (i + cs.length) ≤ j ∧ j < p) →
        (writeContextsLoop d i p cs).1 j = d j) ∧
      (∀ k, k < cs.length →
        readInt32LE (writeContextsLoop d i p cs).1
            (contextSnapshotOffsetOffset (i + k)) =
          p + sumLen (cs.take k)) ∧
      (∀ k, k < cs.length → ∀ m, m < (cs[k]?.getD []).length →
        (writeContextsLoop d i p cs).1 (p + sumLen (cs.take k) + m) =
          (cs[k]?.getD []).getD m 0) := by
  intro cs
  induction cs with
  | nil =>
    intro d i p h1 h2
    refine ⟨by simp [writeContextsLoop, sumLen], ?_, ?_, ?_⟩ <;>
      simp [writeContextsLoop]
  | cons c rest ih =>
    intro d i p h1 h2
    rw [cso_linear] at h1
    simp only [List.length_cons, sumLen_cons] at h1 h2 ⊢
    set d1 := writeAt d (contextSnapshotOffsetOffset i) (int32LE p) with hd1
    set d2 := writeAt d1 p c with hd2
    have hloop : writeContextsLoop d i p (c :: rest) =
        writeContextsLoop d2 (i + 1) (p + c.length) rest := by
      simp only [writeContextsLoop, hd1, hd2]
    have h1ih : contextSnapshotOffsetOffset (i + 1 + rest.length) ≤
        p + c.length := by
      rw [cso_linear]
      omega
    have h2ih : p + c.length + sumLen rest < 2 ^ 32 := by omega
    obtain ⟨ihA, ihB, ihC, ihD⟩ := ih d2 (i + 1) (p + c.length) h1ih h2ih
    have hd2d : ∀ j, j < contextSnapshotOffsetOffset i ∨
        (16 + 4 * (i + 1 + rest.length) ≤ j ∧ j < p) → d2 j = d j := by
      intro j hj
      simp only [cso_linear] at hj
      rw [hd2, writeAt_outside _ _ _ _ (by omega), hd1,
        writeAt_outside _ _ _ _ (by rw [int32LE_length]; simp only [cso_linear]; omega)]
    refine ⟨?_, ?_, ?_, ?_⟩
    · rw [hloop, ihA]
      omega
    · intro j hj
      simp only [cso_linear] at hj
      rw [hloop]
      rw [ihB j (by simp only [cso_linear]; omega)]
      exact hd2d j (by simp only [cso_linear]; omega)
    · intro k hk
      cases k with
      | zero =>
        rw [hloop]
        simp only [Nat.add_zero, List.take_zero]
        have hpres : ∀ m, m < 4 →
            (writeContextsLoop d2 (i + 1) (p + c.length) rest).1
              (contextSnapshotOffsetOffset i + m) =
            d2 (contextSnapshotOffsetOffset i + m) := by
          intro m hm
          refine ihB _ (Or.inl ?_)
          simp only [cso_linear]
          omega
        rw [readInt32LE_congr _ _ _ hpres]
        have hskip : ∀ m, m < 4 → d2 (contextSnapshotOffsetOffset i + m) =
            d1 (contextSnapshotOffsetOffset i + m) := by
          intro m hm
          rw [hd2]
          refine writeAt_outside _ _ _ _ (Or.inl ?_)
          simp only [cso_linear] at h1 ⊢
          omega
        rw [readInt32LE_congr _ _ _ hskip, hd1, readInt32LE_int32LE]
        · simp [sumLen]
        · omega
      | succ k1 =>
        have hk1 : k1 < rest.length := by simpa using hk
        rw [hloop]
        have := ihC k1 hk1
        have harg : i + 1 + k1 = i + (k1 + 1) := by omega
        rw [harg] at this
        rw [this, List.take_succ_cons, sumLen_cons]
        omega
    · intro k hk m hm
      cases k with
      | zero =>
        simp only [List.getElem?_cons_zero, Option.getD_some] at hm ⊢
        rw [hloop, List.take_zero]
        have hj : (writeContextsLoop d2 (i + 1) (p + c.length) rest).1
            (p + sumLen [] + m) = d2 (p + sumLen [] + m) := by
          refine ihB _ (Or.inr ?_)
          simp only [cso_linear]
          constructor
          · simp [sumLen]; omega
          · simp [sumLen]; omega
        rw [hj, hd2]
        have : p + sumLen [] + m = p + m := by simp [sumLen]
        rw [this, writeAt_inside _ _ _ _ (by omega) (by omega)]
        simp
      | succ k1 =>
        have hk1 : k1 < rest.length := by simpa using hk
        simp only [List.getElem?_cons_succ] at hm ⊢
        rw [hloop]
        have := ihD k1 hk1 m hm
        rw [List.take_succ_cons, sumLen_cons]
        have harg : p + (c.length + sumLen (rest.take k1)) + m =
            p + c.length + sumLen (rest.take k1) + m := by omega
        rw [harg]
        exact this

/-- Claim C10 (amended): for every startup snapshot and every nonempty
list of context snapshots each with nonempty data (and a blob that fits
an int32), the blob built by CreateSnapshotBlob satisfies
ExtractNumContexts = number of contexts, ExtractStartupData = startup
payload, and ExtractContextData i = the i-th context payload for every
i below the context count.  With an empty context list (or an empty
trailing payload) the extraction CHECKs read unwritten or payload bytes
and the round-trip fails. -/
theorem createSnapshotBlob_roundTrip (pageSizes startup : List Nat)
    (contexts : List (List Nat))
    (hn : 0 < contexts.length)
    (hne : ∀ c ∈ contexts, c ≠ [])
    (hfit : startupSnapshotOffset contexts.length + startup.length +
      sumLen contexts < 2 ^ 31) :
    extractNumContexts (createSnapshotBlob pageSizes startup contexts) =
      some contexts.length ∧
    extractStartupData (createSnapshotBlob pageSizes startup contexts) =
      some startup ∧
    (∀ i, i < contexts.length →
      extractContextData (createSnapshotBlob pageSizes startup contexts) i =
        some (contexts[i]?.getD [])) := by
  have hsoe : startupSnapshotOffset contexts.length =
      16 + 4 * contexts.length := cso_linear contexts.length
  set so := startupSnapshotOffset contexts.length with hso
  set p0 := so + startup.length with hp0
  set d1 := writeAt (fun _ => 0) kFirstPageSizesOffset
    (pageSizes.take (kNumPagedSpaces * kInt32Size)) with hd1
  set d2 := writeAt d1 kNumberOfContextsOffset
    (int32LE contexts.length) with hd2
  set d3 := writeAt d2 so startup with hd3
  set dF := (writeContextsLoop d3 0 p0 contexts).1 with hdF
  have hblob : createSnapshotBlob pageSizes startup contexts =
      ⟨dF, ((so + startup.length + sumLen contexts : Nat) : Int)⟩ := rfl
  have hsum1 : 1 ≤ sumLen contexts := by
    have := sumLen_take_lt contexts hne 0 hn
    simpa [sumLen] using this
  have hn32 : p0 + sumLen contexts < 2 ^ 32 := by
    rw [hp0]
    omega
  have hle : contextSnapshotOffsetOffset (0 + contexts.length) ≤ p0 := by
    simp only [cso_linear, Nat.zero_add]
    rw [hp0, hsoe]
    omega
  obtain ⟨lA, lB, lC, lD⟩ :=
    writeContextsLoop_spec contexts d3 0 p0 hle hn32
  have hdata : (createSnapshotBlob pageSizes startup contexts).data = dF :=
    rfl
  have hsize : (createSnapshotBlob pageSizes startup contexts).rawSize =
      ((so + startup.length + sumLen contexts : Nat) : Int) := rfl
  have hread_n : readInt32LE dF kNumberOfContextsOffset =
      contexts.length := by
    have hpres : ∀ k, k < 4 →
        dF (kNumberOfContextsOffset + k) =
          d3 (kNumberOfContextsOffset + k) := by
      intro k hk
      refine lB _ (Or.inl ?_)
      simp only [cso_linear, kNumberOfContextsOffset, kFirstPageSizesOffset,
        kNumPagedSpaces, kInt32Size]
      omega
    rw [readInt32LE_congr _ _ _ hpres]
    have hskip : ∀ k, k < 4 →
        d3 (kNumberOfContextsOffset + k) =
          d2 (kNumberOfContextsOffset + k) := by
      intro k hk
      rw [hd3]
      refine writeAt_outside _ _ _ _ (Or.inl ?_)
      rw [hsoe]
      simp only [kNumberOfContextsOffset, kFirstPageSizesOffset,
        kNumPagedSpaces, kInt32Size]
      omega
    rw [readInt32LE_congr _ _ _ hskip, hd2, readInt32LE_int32LE]
    rw [hp0, hsoe] at hfit
    omega
  have hnc : extractNumContexts
      (createSnapshotBlob pageSizes startup contexts) =
      some contexts.length := by
    unfold extractNumContexts
    rw [hdata, hsize]
    rw [if_pos, hread_n]
    refine Int.ofNat_lt.mpr ?_
    rw [hsoe]
    simp only [kNumberOfContextsOffset, kFirstPageSizesOffset,
      kNumPagedSpaces, kInt32Size]
    omega
  have hfirst : readInt32LE dF (contextSnapshotOffsetOffset 0) = p0 := by
    have := lC 0 hn
    simpa [sumLen] using this
  have hstart : ∀ k, k < startup.length →
      dF (so + k) = startup.getD k 0 := by
    intro k hk
    have hb : dF (so + k) = d3 (so + k) := by
      refine lB _ (Or.inr ⟨?_, ?_⟩)
      · simp only [cso_linear, Nat.zero_add]
        rw [hsoe]
        omega
      · rw [hp0]
        omega
    rw [hb, hd3, writeAt_inside _ _ _ _ (by omega) (by omega)]
    simp
  refine ⟨hnc, ?_, ?_⟩
  · unfold extractStartupData
    simp only [hnc]
    rw [hdata, hsize, hfirst]
    rw [if_pos]
    rotate_left
    · exact Int.ofNat_lt.mpr (by rw [hsoe]; omega)
    rw [if_pos]
    rotate_left
    · exact Int.ofNat_lt.mpr (by rw [hp0]; omega)
    have hlen : (((p0 : Nat) : Int) - ((startupSnapshotOffset
        contexts.length : Nat) : Int)).toNat = startup.length := by
      rw [hp0]
      push_cast
      omega
    rw [hlen]
    exact congrArg some (map_range_pointwise dF so startup hstart)
  · intro i hi
    unfold extractContextData
    simp only [hnc]
    rw [hdata, hsize]
    rw [if_pos hi]
    have hoff : readInt32LE dF (contextSnapshotOffsetOffset i) =
        p0 + sumLen (contexts.take i) := by
      have := lC i hi
      simpa using this
    rw [hoff]
    have hbytes : ∀ m, m < (contexts[i]?.getD []).length →
        dF (p0 + sumLen (contexts.take i) + m) =
          (contexts[i]?.getD []).getD m 0 := by
      intro m hm
      exact lD i hi m hm
    by_cases hlast : i = contexts.length - 1
    · rw [if_pos hlast]
      have hi1 : i + 1 = contexts.length := by omega
      have hdecomp : sumLen contexts =
          sumLen (contexts.take i) + (contexts[i]?.getD []).length := by
        have h1 := sumLen_take_succ contexts i hi
        rw [hi1, List.take_length] at h1
        omega
      have htn : (((so + startup.length + sumLen contexts : Nat) : Int) -
          ((p0 + sumLen (contexts.take i) : Nat) : Int)).toNat =
          (contexts[i]?.getD []).length := by
        rw [hp0]
        push_cast
        omega
      rw [htn]
      exact congrArg some (map_range_pointwise _ _ _ hbytes)
    · rw [if_neg hlast]
      have hi1 : i + 1 < contexts.length := by omega
      have hnext : readInt32LE dF (contextSnapshotOffsetOffset (i + 1)) =
          p0 + sumLen (contexts.take (i + 1)) := by
        have := lC (i + 1) hi1
        simpa using this
      rw [hnext]
      have hlt : sumLen (contexts.take (i + 1)) < sumLen contexts :=
        sumLen_take_lt contexts hne (i + 1) hi1
      rw [if_pos]
      rotate_left
      · exact Int.ofNat_lt.mpr (by rw [hp0]; omega)
      have hdiff : p0 + sumLen (contexts.take (i + 1)) -
          (p0 + sumLen (contexts.take i)) =
          (contexts[i]?.getD []).length := by
        have h1 := sumLen_take_succ contexts i hi
        omega
      rw [hdiff]
      exact congrArg some (map_range_pointwise _ _ _ hbytes)

/-- Witness for C10 at a concrete blob: startup payload [1, 2] and two
context payloads [3] and [4, 5]. -/
theorem createSnapshotBlob_roundTrip_witness :
    extractNumContexts (createSnapshotBlob [] [1, 2] [[3], [4, 5]]) =
        some 2 ∧
      extractStartupData (createSnapshotBlob [] [1, 2] [[3], [4, 5]]) =
        some [1, 2] ∧
      extractContextData (createSnapshotBlob [] [1, 2] [[3], [4, 5]]) 1 =
        some [4, 5] :=
  ⟨(createSnapshotBlob_roundTrip [] [1, 2] [[3], [4, 5]] (by decide)
      (by decide) (by decide)).1,
   (createSnapshotBlob_roundTrip [] [1, 2] [[3], [4, 5]] (by decide)
      (by decide) (by decide)).2.1,
   (createSnapshotBlob_roundTrip [] [1, 2] [[3], [4, 5]] (by decide)
      (by decide) (by decide)).2.2 1 (by decide)⟩

end V8
